import Mathlib

/-!
# docker-flatten: layer merge, whiteout resolution and final-image derivation

A shallow embedding of `main.go`.  Go slices are lists, a Go value that can
panic on an index is an `Option`/`Except`, and the file system the program
drives through `rsync`, `filepath.Walk` and `os.RemoveAll` is an explicit
state: a list of entries keyed by their path components.  `filepath.Walk` is
the one of the current Go library (names read first, `Lstat` on each name when
it is reached); `rsync` has its quick check on size and modification time and
does not clear a non-empty directory for a file.
-/

namespace Flatten

/-! ## Image metadata (`dockerHistory`, `dockerImage`, `finalImage`) -/

/-- The anonymous `Config` struct of `dockerImage`. -/
structure dockerConfig where
  PortSpecs : List String
  Cmd : List String
deriving DecidableEq, Repr

/-- The `dockerImage` struct: what inspecting one layer returns. -/
structure dockerImage where
  Id : String
  Parent : String
  Author : String
  Config : dockerConfig
deriving DecidableEq, Repr

/-- The `dockerHistory` struct: one entry of an image history. -/
structure dockerHistory where
  Id : String
  Tags : List String
  CreatedBy : String
deriving DecidableEq, Repr

/-- The `finalImage` struct (the compiled template handle is left out: it is
the same constant for every run). -/
structure finalImage where
  Base : String
  NewName : String
  OriginalName : String
  Archive : String
  Images : List dockerImage
deriving DecidableEq, Repr

/-- The Go slice expression `xs[lo:hi]` for in-range bounds. -/
def slice {α : Type} (xs : List α) (lo hi : Nat) : List α :=
  (xs.take hi).drop lo

namespace finalImage

/-- Method `Author`: `img.Images[0].Author`; `none` is the index-out-of-range
panic of an empty `Images`. -/
def Author (img : finalImage) : Option String :=
  match img.Images with
  | [] => none
  | i :: _ => some i.Author

/-- Method `Ports`: `img.Images[0].Config.PortSpecs`. -/
def Ports (img : finalImage) : Option (List String) :=
  match img.Images with
  | [] => none
  | i :: _ => some i.Config.PortSpecs

/-- Method `HasPorts`: `len(img.Ports()) > 0`. -/
def HasPorts (img : finalImage) : Option Bool :=
  (Ports img).map (fun ps => decide (ps.length > 0))

/-- Method `Cmds`: drops the first two tokens when there are more than two. -/
def Cmds (img : finalImage) : Option (List String) :=
  match img.Images with
  | [] => none
  | i :: _ =>
    let cmds := i.Config.Cmd
    if cmds.length > 2 then some (slice cmds 2 cmds.length) else some []

/-- Method `HasCmds`: `len(img.Cmds()) > 0`. -/
def HasCmds (img : finalImage) : Option Bool :=
  (Cmds img).map (fun cs => decide (cs.length > 0))

end finalImage

/-! ## Building the final image in `main` -/

/-- The loop of `getDockerImages`: inspect each history entry in order,
appending to `images`, and return at the first failed inspection. -/
def getDockerImagesLoop (inspectImage : String → Except String dockerImage) :
    List dockerHistory → List dockerImage → Except String (List dockerImage)
  | [], images => .ok images
  | history :: rest, images =>
    match inspectImage history.Id with
    | .error err => .error err
    | .ok img => getDockerImagesLoop inspectImage rest (images ++ [img])

/-- Function `getDockerImages`. -/
def getDockerImages (inspectImage : String → Except String dockerImage)
    (histories : List dockerHistory) : Except String (List dockerImage) :=
  getDockerImagesLoop inspectImage histories []

/-- How `main` can stop before it has a `finalImage`. -/
inductive Abort where
  | exit (msg : String)
  | indexOutOfRange
  | sliceOutOfRange
deriving DecidableEq, Repr

/-- Lines 228-239 of `main`: inspect the history, take the last history id as
base and all images but the last as the layers to merge.  There is no length
check: an empty history panics on `histories[len(histories)-1]`. -/
def buildFinal (inspectImage : String → Except String dockerImage)
    (flTag image : String) (histories : List dockerHistory) : Except Abort finalImage :=
  match getDockerImages inspectImage histories with
  | .error _ => .error (.exit "Failed to get info")
  | .ok images =>
    match histories.getLast? with
    | none => .error .indexOutOfRange
    | some last =>
      if images.length = 0 then .error .sliceOutOfRange
      else .ok { Base := last.Id, NewName := flTag, OriginalName := image,
                 Archive := "", Images := slice images 0 (images.length - 1) }

/-! ## File system state

The scratch tree is driven through external tools and the Go standard
library.  A path is its list of components from `/`; the file system is the
list of its entries.  The root `/` is always a directory and has no entry. -/

/-- A cleaned absolute path: its components, `/` being the empty list. -/
abbrev Path := List String

/-- One file-system entry: a directory, or a non-directory with its content
and its modification time. -/
structure Entry where
  path : Path
  isDir : Bool
  content : String
  mtime : Nat
deriving DecidableEq, Repr

/-- The file-system state. -/
abbrev FS := List Entry

/-- Errors of the modelled system calls and of the walk.  `nilInfo` is the
panic of the callback calling `Name` on a `FileInfo` that is nil; `fuel` is
the recursion bound of the model. -/
inductive IOErr where
  | notExist (p : Path)
  | notDir (p : Path)
  | denied (p : Path)
  | notEmpty (p : Path)
  | nilInfo
  | fuel
deriving DecidableEq, Repr

/-- Test `within x p`: path `p` is `x` or lies beneath `x`. -/
def within : Path → Path → Bool
  | [], _ => true
  | _ :: _, [] => false
  | a :: x, b :: p => decide (a = b) && within x p

/-- System call `os.Lstat`: whether the path exists, and if so whether it is a
directory. -/
def lstat (fs : FS) (p : Path) : Option Bool :=
  if p = [] then some true
  else (fs.find? (fun e => decide (e.path = p))).map (fun e => e.isDir)

/-- Library call `os.RemoveAll`: removes the path and everything beneath it;
a path that does not exist is not an error.  `deny` stands for the operating
system refusing to remove an entry (the walk runs without `sudo`). -/
def RemoveAll (deny : Path → Bool) (fs : FS) (p : Path) : Except IOErr FS :=
  if fs.any (fun e => within p e.path && deny e.path) then .error (.denied p)
  else .ok (fs.filter (fun e => !within p e.path))

/-- Constant `WHITEOUT`. -/
def WHITEOUT : String := ".wh."

/-- Test `startsWith pre s`: the characters `pre` begin `s`. -/
def startsWith : List Char → List Char → Bool
  | [], _ => true
  | _ :: _, [] => false
  | a :: pre, b :: s => decide (a = b) && startsWith pre s

/-- The test `strings.Index(name, WHITEOUT) == 0`. -/
def isWhiteout (name : String) : Bool :=
  startsWith WHITEOUT.data name.data

/-- The slice `name[len(WHITEOUT):len(name)]`. -/
def stripWhiteout (name : String) : String :=
  String.mk (name.data.drop WHITEOUT.length)

/-- Library call `path.Join(parent, elem)` for a cleaned `parent` and one
component `elem`: an empty component and `.` are dropped, `..` steps up. -/
def pathJoin (parent : Path) (elem : String) : Path :=
  if elem = "" ∨ elem = "." then parent
  else if elem = ".." then parent.dropLast
  else parent ++ [elem]

/-- The name `info.Name()` of a path: its last component. -/
def baseName (p : Path) : String :=
  p.getLast?.getD "/"

/-- The callback that `deleteWhiteouts` hands to `filepath.Walk`. -/
def whiteoutFn (deny : Path → Bool) (fs : FS) (p : Path) (info : Option String)
    (err : Option IOErr) : Except IOErr FS :=
  let go : Except IOErr FS :=
    match info with
    | none => .error .nilInfo
    | some name =>
      let parent := p.dropLast
      if isWhiteout name then
        let deletedFile := pathJoin parent (stripWhiteout name)
        match RemoveAll deny fs deletedFile with
        | .error e => .error e
        | .ok fs1 => RemoveAll deny fs1 p
      else .ok fs
  match err with
  | none => go
  | some (.notExist _) => go
  | some e => .error e

/-- Byte-wise order on names, as `sort.Strings` compares them. -/
def charsLe : List Char → List Char → Bool
  | [], _ => true
  | _ :: _, [] => false
  | a :: as, b :: bs =>
    if a.toNat < b.toNat then true
    else if b.toNat < a.toNat then false
    else charsLe as bs

/-- Insertion of one name into a sorted list of names. -/
def insertName (n : String) : List String → List String
  | [] => [n]
  | m :: ms => if charsLe n.data m.data then n :: m :: ms else m :: insertName n ms

/-- Sorting of a list of names. -/
def sortNames : List String → List String
  | [] => []
  | n :: ns => insertName n (sortNames ns)

/-- The names of the entries directly inside directory `p`. -/
def childNames (fs : FS) (p : Path) : List String :=
  fs.filterMap (fun e => if e.path ≠ [] ∧ e.path.dropLast = p then e.path.getLast? else none)

/-- The helper `readDirNames` of `filepath.Walk`: the sorted names of a
directory. -/
def readDirNames (fs : FS) (p : Path) : Except IOErr (List String) :=
  match lstat fs p with
  | none => .error (.notExist p)
  | some false => .error (.notDir p)
  | some true => .ok (sortNames (childNames fs p))

/-- The recursion `walk` of `filepath.Walk` with the callback of
`deleteWhiteouts`.  A non-directory gets the callback alone.  For a directory
the names are read first, then the callback runs on the directory (with the
read error, if any, in which case its result is returned); then every name
read is taken in order: `Lstat` on it, and when that fails the callback is
called with no `FileInfo` and the error, otherwise the walk goes into it.  The
first error stops the walk.  The first argument bounds the recursion depth;
`deleteWhiteouts_fuel` shows the bound given by `deleteWhiteouts` is never
reached. -/
def walk (deny : Path → Bool) : Nat → FS → Path → String → Bool → Except IOErr FS
  | 0, _, _, _, _ => .error .fuel
  | n + 1, fs, p, name, dir =>
    if dir = false then whiteoutFn deny fs p (some name) none
    else
      match readDirNames fs p with
      | .error e => whiteoutFn deny fs p (some name) (some e)
      | .ok names =>
        match whiteoutFn deny fs p (some name) none with
        | .error e => .error e
        | .ok fs1 =>
          names.foldlM (fun s c =>
            match lstat s (p ++ [c]) with
            | none => whiteoutFn deny s (p ++ [c]) none (some (.notExist (p ++ [c])))
            | some d => walk deny n s (p ++ [c]) c d) fs1

/-- The longest path of the state: the walk from any root needs at most one
more level of recursion. -/
def depth (fs : FS) : Nat :=
  (fs.map (fun e => e.path.length)).foldl max 0

/-- Function `deleteWhiteouts`: `filepath.Walk` from `tmpImageDir`; when
`Lstat` on the root fails the callback is called with no `FileInfo`. -/
def deleteWhiteouts (deny : Path → Bool) (fs : FS) (tmpImageDir : Path) : Except IOErr FS :=
  match lstat fs tmpImageDir with
  | none => whiteoutFn deny fs tmpImageDir none (some (.notExist tmpImageDir))
  | some dir => walk deny (depth fs + 1) fs tmpImageDir (baseName tmpImageDir) dir

/-! ## Layer merge -/

/-- A layer's content root `layer` as it lands under destination `dst`: the
directory itself, then its entries, whose paths are relative to it. -/
def layerEntries (dst : Path) (layer : List Entry) : List Entry :=
  ({ path := [], isDir := true, content := "", mtime := 0 } :: layer).map
    (fun e => { e with path := dst ++ ["layer"] ++ e.path })

/-- Whether `rsync` meets a non-directory of the source where the destination
has a directory that still has entries: without `--force` or `--delete` it
does not clear the directory and exits with an error. -/
def rsyncBlocked (fs : FS) (es : List Entry) : Bool :=
  es.any (fun e => !e.isDir && decide (lstat fs e.path = some true) &&
    fs.any (fun x => within e.path x.path && decide (x.path ≠ e.path)))

/-- The quick check of `rsync`: without `--ignore-times` or `--checksum` a
regular file is not transferred when the destination has a regular file of
the same size and modification time at its path. -/
def quickCheck (fs : FS) (e : Entry) : Bool :=
  match fs.find? (fun x => decide (x.path = e.path)) with
  | none => false
  | some x =>
    !e.isDir && !x.isDir && decide (x.content.utf8ByteSize = e.content.utf8ByteSize) &&
      decide (x.mtime = e.mtime)

/-- The source entries that `rsync` transfers. -/
def transferred (fs : FS) (es : List Entry) : List Entry :=
  es.filter (fun e => !quickCheck fs e)

/-- The command `rsync -aHSx --devices --specials <image>/layer dst`: every
transferred source entry replaces what the destination has at its path (the
times are preserved), everything else in the destination stays.  `none` is a
source that does not exist. -/
def rsync (fs : FS) (layer : Option (List Entry)) (dst : Path) : Except IOErr FS :=
  match layer with
  | none => .error (.notExist ["layer"])
  | some l =>
    let es := layerEntries dst l
    if rsyncBlocked fs es then .error (.notEmpty dst)
    else
      .ok (transferred fs es ++
        fs.filter (fun x => !(transferred fs es).any (fun e => decide (e.path = x.path))))

/-- The directory made by `ioutil.TempDir`, with the directories above it. -/
def mkdirAll (dir : Path) : FS :=
  (List.range dir.length).map
    (fun i => { path := dir.take (i + 1), isDir := true, content := "", mtime := 0 })

/-- The loop of `syncData` over the layers, from the last index down to 0. -/
def syncLayers (dir : Path) (layers : List (Option (List Entry))) : Except IOErr FS :=
  layers.reverse.foldlM (fun fs layer => rsync fs layer dir) (mkdirAll dir)

/-- Function `syncData`; `store` resolves an image id to the content of
`/var/lib/docker/graph/<id>/layer` and `dir` is the fresh temporary directory. -/
def syncData (store : String → Option (List Entry)) (dir : Path) (img : finalImage) :
    Except IOErr FS :=
  syncLayers dir (img.Images.map (fun image => store image.Id))

/-- A one-entry history with a cooperative inspection: the input at which the
length guard of the specification is seen to be absent. -/
def oneEntryInspect (_ : String) : Except String dockerImage :=
  .ok { Id := "only", Parent := "", Author := "me",
        Config := { PortSpecs := [], Cmd := [] } }

/-! ## Notions used to state the properties -/

/-- The proper ancestors of a path, `/` included. -/
def ancestors (p : Path) : List Path :=
  (List.range p.length).map (fun i => p.take i)

/-- A state is a tree when every proper ancestor of every entry is a
directory. -/
def wellFormed (fs : FS) : Bool :=
  fs.all (fun e => (ancestors e.path).all (fun x => decide (lstat fs x = some true)))

/-- Whether `x` is one of `roots` or lies beneath one of them. -/
def covered (roots : List Path) (x : Path) : Bool :=
  roots.any (fun r => within r x)

/-- The state without the subtrees at `roots`. -/
def cut (roots : List Path) (fs : FS) : FS :=
  fs.filter (fun e => !covered roots e.path)

/-- A regular file entry. -/
def fileE (p : Path) (c : String) : Entry :=
  { path := p, isDir := false, content := c, mtime := 0 }

/-- A directory entry. -/
def dirE (p : Path) : Entry := { path := p, isDir := true, content := "", mtime := 0 }

/-- The paths the callback removes when called on path `p` with name
`name`: the shadowed sibling and the marker itself. -/
def fnRoots (p : Path) (name : String) : List Path :=
  if isWhiteout name then [pathJoin p.dropLast (stripWhiteout name), p] else []

/-- Where a walk of `q` removes: at or beneath `q`, or at a path whose parent
is `q` or above it. -/
def near (q r : Path) : Prop :=
  within q r = true ∨ within r.dropLast q = true

/-- What a finished walk of `q` has done about path `t` beneath it: a proper
ancestor of `t` was removed, or the callback ran on `t`, so that a marker `t`
and the path it shadows are removed. -/
def Handled (roots : List Path) (q t : Path) : Prop :=
  (∃ x, within q x = true ∧ within x t = true ∧ x ≠ t ∧ covered roots x = true) ∨
  (isWhiteout (baseName t) = true →
    covered roots t = true ∧
    covered roots (pathJoin t.dropLast (stripWhiteout (baseName t))) = true)

/-- A layer is a directory tree relative to its content root: every entry has
a non-empty relative path and all its proper ancestors are directories. -/
def layerOK (l : List Entry) : Bool :=
  wellFormed l && l.all (fun e => decide (e.path ≠ []))

/-- The layers of the end-to-end scenario: `L2` adds `/x` and whites out `/y`. -/
def L2 : List Entry := [fileE ["x"] "x2", fileE [".wh.y"] ""]

/-- The layers of the end-to-end scenario: `L1` adds `/y` and `/z`. -/
def L1 : List Entry := [fileE ["y"] "y1", fileE ["z"] "z1"]

/-- The chain in which the more-derived layer re-creates the file `-y` over
the marker `.wh.-y` of the less-derived layer; both layers write `common`. -/
def reAdd : List (List Entry) :=
  [[fileE ["-y"] "new", fileE ["common"] "two"],
   [fileE [".wh.-y"] "", fileE ["common"] "one!"]]

/-- The operating system never refusing a removal. -/
def allow (_ : Path) : Bool := false

/-- The scratch directory of the worked examples. -/
def scratch : Path := ["tmp", "d"]

/-- The end-to-end scenario after `syncData`. -/
def mergedScenario : FS :=
  [dirE ["tmp", "d", "layer"], fileE ["tmp", "d", "layer", "x"] "x2",
   fileE ["tmp", "d", "layer", ".wh.y"] "", fileE ["tmp", "d", "layer", "y"] "y1",
   fileE ["tmp", "d", "layer", "z"] "z1", dirE ["tmp"], dirE ["tmp", "d"]]

/-- The chain `reAdd` after `syncData`. -/
def mergedReAdd : FS :=
  [dirE ["tmp", "d", "layer"], fileE ["tmp", "d", "layer", "-y"] "new",
   fileE ["tmp", "d", "layer", "common"] "two", fileE ["tmp", "d", "layer", ".wh.-y"] "",
   dirE ["tmp"], dirE ["tmp", "d"]]

/-- The chain `reAdd` after `deleteWhiteouts`. -/
def flatReAdd : FS :=
  [dirE ["tmp", "d", "layer"], fileE ["tmp", "d", "layer", "common"] "two",
   dirE ["tmp"], dirE ["tmp", "d"]]

/-- A tree whose only marker is a file named exactly `.wh.` in directory
`etc`, next to a file `-keep`; the marker is dangling. -/
def bareMarker : FS :=
  [dirE ["tmp"], dirE ["tmp", "d"], dirE ["tmp", "d", "layer"],
   dirE ["tmp", "d", "layer", "etc"], fileE ["tmp", "d", "layer", "etc", ".wh."] "",
   fileE ["tmp", "d", "layer", "etc", "-keep"] "k"]

/-- A tree in which the marker `.wh.-old` shadows the directory `-old`, which
holds a file and a marker of its own. -/
def oldMarker : FS :=
  [dirE ["tmp"], dirE ["tmp", "d"], dirE ["tmp", "d", "layer"],
   dirE ["tmp", "d", "layer", "-old"], fileE ["tmp", "d", "layer", "-old", "f"] "data",
   fileE ["tmp", "d", "layer", "-old", ".wh.gone"] "",
   fileE ["tmp", "d", "layer", ".wh.-old"] "", fileE ["tmp", "d", "layer", "kept"] "k"]

/-- A layer store in which the more-derived layer has a regular file `a` where
the less-derived layer has a directory `a` holding `a/f`. -/
def blockedStore (id : String) : Option (List Entry) :=
  if id = "l2" then some [fileE ["a"] "file"]
  else if id = "l1" then some [dirE ["a"], fileE ["a", "f"] "x"] else none

/-- A layer store in which both layers have a file `f` of the same size and
modification time, with different content. -/
def sameStampStore (id : String) : Option (List Entry) :=
  if id = "l2" then some [fileE ["f"] "new"]
  else if id = "l1" then some [fileE ["f"] "old"] else none

/-- An inspection that answers every id, with the id as author. -/
def echoInspect (id : String) : Except String dockerImage :=
  .ok { Id := id, Parent := "", Author := id,
        Config := { PortSpecs := ["80"], Cmd := ["/bin/sh", "-c", id] } }

/-- A final image over one inspected image with a four-token command. -/
def fourTokens : finalImage :=
  { Base := "base", NewName := "new", OriginalName := "orig", Archive := "",
    Images := [{ Id := "top", Parent := "base", Author := "me",
                 Config := { PortSpecs := [], Cmd := ["/bin/sh", "-c", "echo", "hi"] } }] }

/-- What a run of `main` from `syncData` on has done. -/
structure RunLog where
  exitCode : Nat
  whiteoutErr : Option IOErr
  archived : Bool
  built : Bool
  finished : Bool
deriving DecidableEq, Repr

/-- Lines 241-256 of `main`: a failed `syncData` exits with status 1; the
values returned by `deleteWhiteouts`, `tar` and `buildImage` are dropped, so
the run goes on to its last line whatever they are. -/
def mainTail (store : String → Option (List Entry)) (dir : Path) (final : finalImage)
    (deny : Path → Bool) : RunLog :=
  match syncData store dir final with
  | .error _ =>
    { exitCode := 1, whiteoutErr := none, archived := false, built := false, finished := false }
  | .ok t =>
    let err := match deleteWhiteouts deny t dir with
      | .error e => some e
      | .ok _ => none
    { exitCode := 0, whiteoutErr := err, archived := true, built := true, finished := true }

/-- A layer store with one layer that whites out `/y`. -/
def oneLayerStore (_ : String) : Option (List Entry) :=
  some [fileE [".wh.y"] "", fileE ["y"] "data"]

/-- The operating system refusing to remove `/tmp/d/layer/y`. -/
def denyY (p : Path) : Bool := decide (p = ["tmp", "d", "layer", "y"])

/-- An image record with nothing but its id. -/
def imageOf (id : String) : dockerImage :=
  { Id := id, Parent := "", Author := "", Config := { PortSpecs := [], Cmd := [] } }

/-- A final image over the images with the given ids, most-derived first. -/
def chainOf (ids : List String) : finalImage :=
  { Base := "base", NewName := "new", OriginalName := "orig", Archive := "",
    Images := ids.map imageOf }

/-- The layer store of the end-to-end scenario. -/
def scenarioStore (id : String) : Option (List Entry) :=
  if id = "l2" then some L2 else if id = "l1" then some L1 else none

/-- The layer store of the chain `reAdd`. -/
def reAddStore (id : String) : Option (List Entry) :=
  if id = "l2" then some [fileE ["-y"] "new", fileE ["common"] "two"]
  else if id = "l1" then some [fileE [".wh.-y"] "", fileE ["common"] "one!"] else none

/-- A history entry with nothing but its id. -/
def historyOf (id : String) : dockerHistory :=
  { Id := id, Tags := [], CreatedBy := "" }

/-- Root `r` was removed by the callback run on the marker `p`: it is the
marker itself or the path the marker shadows. -/
def fromMarker (r p : Path) : Prop :=
  isWhiteout (baseName p) = true ∧
  (r = p ∨ r = pathJoin p.dropLast (stripWhiteout (baseName p)))

/-! # Properties -/

/-! ## Command normalisation -/

theorem slice_two_length {α : Type} (xs : List α) : slice xs 2 xs.length = xs.drop 2 := by
  simp [slice]

/-- C6: with an inherited command of more than two tokens `Cmds` is that list
without its first two tokens, otherwise it is empty; `HasCmds` holds exactly
when the inherited command has more than two tokens. -/
theorem C6_cmds_drop_two (img : finalImage) (i : dockerImage) (rest : List dockerImage)
    (h : img.Images = i :: rest) :
    (2 < i.Config.Cmd.length → img.Cmds = some (i.Config.Cmd.drop 2)) ∧
    (i.Config.Cmd.length ≤ 2 → img.Cmds = some []) ∧
    (img.HasCmds = some (decide (2 < i.Config.Cmd.length))) := by
  unfold finalImage.HasCmds finalImage.Cmds
  rw [h]
  simp only [slice_two_length]
  by_cases hlen : 2 < i.Config.Cmd.length
  · simp [hlen]
  · have hle : i.Config.Cmd.length ≤ 2 := by omega
    simp [hlen, hle]

/-- C7 (as the code has it): the inherited command `/bin/sh -c "echo hi"` has
three tokens, so `Cmds` returns its third token alone, unsplit. -/
theorem C7_cmds_shell_example (b n o a : String) (rest : List dockerImage)
    (id parent author : String) (ports : List String) :
    finalImage.Cmds
      { Base := b, NewName := n, OriginalName := o, Archive := a,
        Images := { Id := id, Parent := parent, Author := author,
                    Config := { PortSpecs := ports, Cmd := ["/bin/sh", "-c", "echo hi"] } } :: rest }
      = some ["echo hi"] := by
  rfl

/-- C7 (as stated) fails: the result is not the two-token list. -/
theorem C7_not_two_tokens :
    finalImage.Cmds
      { Base := "base", NewName := "new", OriginalName := "orig", Archive := "",
        Images := [{ Id := "top", Parent := "base", Author := "me",
                     Config := { PortSpecs := [], Cmd := ["/bin/sh", "-c", "echo hi"] } }] }
      ≠ some ["echo", "hi"] := by
  decide

/-! ## Final-image derivation -/

theorem getDockerImagesLoop_ok (inspectImage : String → Except String dockerImage) :
    ∀ (hs : List dockerHistory) (acc images : List dockerImage),
      getDockerImagesLoop inspectImage hs acc = .ok images →
      ∃ more, images = acc ++ more ∧
        List.Forall₂ (fun h img => inspectImage h.Id = .ok img) hs more := by
  intro hs
  induction hs with
  | nil =>
    intro acc images h
    simp only [getDockerImagesLoop, Except.ok.injEq] at h
    exact ⟨[], by simp [h], List.Forall₂.nil⟩
  | cons h0 rest ih =>
    intro acc images h
    unfold getDockerImagesLoop at h
    cases hi : inspectImage h0.Id with
    | error e => rw [hi] at h; cases h
    | ok img =>
      rw [hi] at h
      obtain ⟨more, hmore, hall⟩ := ih _ _ h
      exact ⟨img :: more, by simp [hmore], List.Forall₂.cons hi hall⟩

theorem getDockerImagesLoop_total (inspectImage : String → Except String dockerImage) :
    ∀ (hs : List dockerHistory) (acc : List dockerImage),
      (∀ h ∈ hs, ∃ img, inspectImage h.Id = .ok img) →
      ∃ images, getDockerImagesLoop inspectImage hs acc = .ok images := by
  intro hs
  induction hs with
  | nil =>
    intro acc _
    exact ⟨acc, rfl⟩
  | cons h0 rest ih =>
    intro acc hall
    obtain ⟨img, hi⟩ := hall h0 (List.mem_cons_self _ _)
    obtain ⟨images, him⟩ := ih (acc ++ [img]) (fun h hh => hall h (List.mem_cons_of_mem _ hh))
    refine ⟨images, ?_⟩
    unfold getDockerImagesLoop
    rw [hi]
    exact him

theorem final_of_images (inspectImage : String → Except String dockerImage)
    (flTag image : String) (h0 h1 : dockerHistory) (rest : List dockerHistory)
    (images : List dockerImage)
    (hok : getDockerImages inspectImage (h0 :: h1 :: rest) = .ok images) :
    ∃ final first,
      buildFinal inspectImage flTag image (h0 :: h1 :: rest) = .ok final ∧
      inspectImage h0.Id = .ok first ∧
      final.Base = ((h1 :: rest).getLast (by simp)).Id ∧
      final.Author = some first.Author ∧
      final.Ports = some first.Config.PortSpecs ∧
      final.Images.head? = some first ∧
      final.Images.length = rest.length + 1 := by
  obtain ⟨more, hmore, hall⟩ := getDockerImagesLoop_ok inspectImage _ _ _ hok
  have hlen := hall.length_eq
  rw [List.forall₂_cons_left_iff] at hall
  obtain ⟨first, more1, hfirst, hall1, rfl⟩ := hall
  rw [List.forall₂_cons_left_iff] at hall1
  obtain ⟨second, more2, _, _, rfl⟩ := hall1
  simp only [List.nil_append] at hmore
  subst hmore
  simp only [List.length_cons] at hlen
  refine ⟨{ Base := ((h1 :: rest).getLast (by simp)).Id, NewName := flTag,
             OriginalName := image, Archive := "",
             Images := slice (first :: second :: more2) 0
               ((first :: second :: more2).length - 1) }, first, ?_, hfirst, rfl, ?_⟩
  · simp only [buildFinal, hok]
    rw [show (h0 :: h1 :: rest).getLast? = some ((h1 :: rest).getLast (by simp)) by
      rw [List.getLast?_eq_getLast _ (by simp)]; simp]
    simp only [List.length_cons]
    rw [if_neg (by omega)]
  · simp only [finalImage.Author, finalImage.Ports, slice, List.length_cons, List.drop_zero,
      Nat.add_sub_cancel, List.take_succ_cons, List.head?_cons, List.length_take, true_and]
    omega

/-- C8: for a history of at least two entries that all inspect successfully,
`main` builds a final image whose `Base` is the id of the last history entry
and whose author, ports and command source are those of the inspected first
(most-derived) entry; it holds one image for every entry but the last. -/
theorem C8_final_image_fields (inspectImage : String → Except String dockerImage)
    (flTag image : String) (h0 h1 : dockerHistory) (rest : List dockerHistory)
    (hall : ∀ h ∈ h0 :: h1 :: rest, ∃ img, inspectImage h.Id = .ok img) :
    ∃ final first,
      buildFinal inspectImage flTag image (h0 :: h1 :: rest) = .ok final ∧
      inspectImage h0.Id = .ok first ∧
      final.Base = ((h1 :: rest).getLast (by simp)).Id ∧
      final.Author = some first.Author ∧
      final.Ports = some first.Config.PortSpecs ∧
      final.Images.head? = some first ∧
      final.Images.length = rest.length + 1 := by
  obtain ⟨images, hok⟩ := getDockerImagesLoop_total inspectImage (h0 :: h1 :: rest) [] hall
  exact final_of_images inspectImage flTag image h0 h1 rest images hok

/-! ## Paths -/

theorem within_iff_append : ∀ (x p : Path), within x p = true ↔ ∃ s, p = x ++ s
  | [], p => by simp [within]
  | _ :: _, [] => by simp [within]
  | a :: x, b :: p => by
    simp only [within, Bool.and_eq_true, decide_eq_true_eq, List.cons_append, List.cons.injEq]
    rw [within_iff_append x p]
    constructor
    · rintro ⟨rfl, s, rfl⟩
      exact ⟨s, rfl, rfl⟩
    · rintro ⟨s, rfl, rfl⟩
      exact ⟨rfl, s, rfl⟩

theorem within_refl (x : Path) : within x x = true :=
  (within_iff_append x x).2 ⟨[], by simp⟩

theorem within_append (x s : Path) : within x (x ++ s) = true :=
  (within_iff_append x _).2 ⟨s, rfl⟩

theorem within_trans {a b c : Path} (h1 : within a b = true) (h2 : within b c = true) :
    within a c = true := by
  obtain ⟨s, rfl⟩ := (within_iff_append _ _).1 h1
  obtain ⟨t, rfl⟩ := (within_iff_append _ _).1 h2
  exact (within_iff_append _ _).2 ⟨s ++ t, by simp⟩

theorem within_length {a b : Path} (h : within a b = true) : a.length ≤ b.length := by
  obtain ⟨s, rfl⟩ := (within_iff_append _ _).1 h
  simp

theorem within_comparable : ∀ (a b t : Path), within a t = true → within b t = true →
    within a b = true ∨ within b a = true
  | [], _, _ => by simp [within]
  | _ :: _, [], _ => by simp [within]
  | _ :: _, _ :: _, [] => by simp [within]
  | a0 :: a, b0 :: b, t0 :: t => by
    simp only [within, Bool.and_eq_true, decide_eq_true_eq]
    rintro ⟨rfl, ha⟩ ⟨rfl, hb⟩
    rcases within_comparable a b t ha hb with h | h
    · exact Or.inl ⟨rfl, h⟩
    · exact Or.inr ⟨rfl, h⟩

theorem within_antisymm {a b : Path} (h1 : within a b = true) (h2 : within b a = true) :
    a = b := by
  obtain ⟨s, rfl⟩ := (within_iff_append _ _).1 h1
  have := within_length h2
  simp only [List.length_append] at this
  have hs : s = [] := List.eq_nil_of_length_eq_zero (by omega)
  simp [hs]

theorem within_dropLast {a t : Path} (h : within a t = true) (hne : a ≠ t) :
    within a t.dropLast = true := by
  obtain ⟨s, rfl⟩ := (within_iff_append _ _).1 h
  have hs : s ≠ [] := by
    rintro rfl
    simp at hne
  rw [List.dropLast_append_of_ne_nil _ hs]
  exact within_append _ _

theorem within_dropLast_self (t : Path) : within t.dropLast t = true := by
  refine (within_iff_append _ _).2 ⟨t.drop (t.length - 1), ?_⟩
  rw [List.dropLast_eq_take]
  exact (List.take_append_drop _ _).symm

theorem within_snoc_snoc {q : Path} {c d : String} (h : within (q ++ [c]) (q ++ [d]) = true) :
    c = d := by
  obtain ⟨s, hs⟩ := (within_iff_append _ _).1 h
  rw [List.append_assoc] at hs
  have := List.append_cancel_left hs
  simp only [List.singleton_append, List.cons.injEq] at this
  exact this.1.symm

theorem mem_ancestors {x p : Path} (h : within x p = true) (hne : x ≠ p) : x ∈ ancestors p := by
  obtain ⟨s, rfl⟩ := (within_iff_append _ _).1 h
  have hs : s ≠ [] := by
    rintro rfl
    simp at hne
  simp only [ancestors, List.mem_map, List.mem_range, List.length_append]
  refine ⟨x.length, ?_, by simp⟩
  have : 0 < s.length := List.length_pos.2 hs
  omega

theorem wellFormed_iff (fs : FS) :
    wellFormed fs = true ↔
      ∀ e ∈ fs, ∀ x, within x e.path = true → x ≠ e.path → lstat fs x = some true := by
  simp only [wellFormed, List.all_eq_true, decide_eq_true_eq]
  constructor
  · intro h e he x hx hne
    exact h e he x (mem_ancestors hx hne)
  · intro h e he x hx
    simp only [ancestors, List.mem_map, List.mem_range] at hx
    obtain ⟨i, hi, rfl⟩ := hx
    refine h e he _ ?_ ?_
    · exact (within_iff_append _ _).2 ⟨e.path.drop i, (List.take_append_drop _ _).symm⟩
    · intro heq
      have := congrArg List.length heq
      simp only [List.length_take] at this
      omega

/-! ## Removing subtrees -/

theorem covered_iff (roots : List Path) (x : Path) :
    covered roots x = true ↔ ∃ r ∈ roots, within r x = true := by
  simp [covered, List.any_eq_true]

theorem covered_mono {roots : List Path} {x y : Path} (h : covered roots x = true)
    (hxy : within x y = true) : covered roots y = true := by
  obtain ⟨r, hr, hrx⟩ := (covered_iff _ _).1 h
  exact (covered_iff _ _).2 ⟨r, hr, within_trans hrx hxy⟩

theorem covered_append_left {r1 : List Path} (r2 : List Path) {x : Path}
    (h : covered r1 x = true) : covered (r1 ++ r2) x = true := by
  obtain ⟨r, hr, hrx⟩ := (covered_iff _ _).1 h
  exact (covered_iff _ _).2 ⟨r, List.mem_append_left _ hr, hrx⟩

theorem covered_append_right (r1 : List Path) {r2 : List Path} {x : Path}
    (h : covered r2 x = true) : covered (r1 ++ r2) x = true := by
  obtain ⟨r, hr, hrx⟩ := (covered_iff _ _).1 h
  exact (covered_iff _ _).2 ⟨r, List.mem_append_right _ hr, hrx⟩

theorem mem_cut {roots : List Path} {fs : FS} {e : Entry} :
    e ∈ cut roots fs ↔ e ∈ fs ∧ covered roots e.path = false := by
  simp [cut, List.mem_filter]

theorem cut_nil (fs : FS) : cut [] fs = fs := by
  simp [cut, covered]

theorem cut_cut (r1 r2 : List Path) (fs : FS) : cut r2 (cut r1 fs) = cut (r1 ++ r2) fs := by
  simp only [cut, List.filter_filter]
  congr 1
  funext e
  simp only [covered, List.any_append, Bool.not_or]
  exact Bool.and_comm _ _

theorem lstat_cut (roots : List Path) (fs : FS) (q : Path) (hq : q ≠ []) :
    lstat (cut roots fs) q = if covered roots q = true then none else lstat fs q := by
  simp only [lstat, if_neg hq]
  induction fs with
  | nil => simp [cut]
  | cons e fs ih =>
    simp only [cut] at ih ⊢
    by_cases hc : covered roots e.path = true
    · rw [List.filter_cons_of_neg (by simp [hc]), ih]
      by_cases he : e.path = q
      · rw [he] at hc
        simp [hc]
      · rw [List.find?_cons_of_neg _ (by simpa using he)]
    · rw [List.filter_cons_of_pos (by simpa using hc)]
      by_cases he : e.path = q
      · rw [List.find?_cons_of_pos _ (by simpa using he),
          List.find?_cons_of_pos _ (by simpa using he)]
        rw [he] at hc
        simp [hc]
      · rw [List.find?_cons_of_neg _ (by simpa using he),
          List.find?_cons_of_neg _ (by simpa using he), ih]

theorem lstat_cut_some {roots : List Path} {fs : FS} {q : Path} {k : Bool}
    (h : lstat (cut roots fs) q = some k) : lstat fs q = some k := by
  by_cases hq : q = []
  · subst hq
    simpa [lstat] using h
  · rw [lstat_cut _ _ _ hq] at h
    by_cases hc : covered roots q = true
    · simp [hc] at h
    · simpa [hc] using h

theorem lstat_some_mem {fs : FS} {q : Path} {k : Bool} (hq : q ≠ [])
    (h : lstat fs q = some k) : ∃ e ∈ fs, e.path = q ∧ e.isDir = k := by
  simp only [lstat, if_neg hq, Option.map_eq_some'] at h
  obtain ⟨e, he, hk⟩ := h
  exact ⟨e, List.mem_of_find?_eq_some he, by simpa using List.find?_some he, hk⟩

theorem lstat_ne_none_of_mem {fs : FS} {e : Entry} (he : e ∈ fs) : lstat fs e.path ≠ none := by
  unfold lstat
  split
  · simp
  · intro h
    simp only [Option.map_eq_none', List.find?_eq_none] at h
    simpa using h e he

theorem wellFormed_cut (roots : List Path) {fs : FS} (h : wellFormed fs = true) :
    wellFormed (cut roots fs) = true := by
  rw [wellFormed_iff] at h ⊢
  intro e he x hx hne
  obtain ⟨hefs, hcov⟩ := mem_cut.1 he
  have hl := h e hefs x hx hne
  by_cases hq : x = []
  · subst hq
    simp [lstat]
  · rw [lstat_cut _ _ _ hq]
    by_cases hc : covered roots x = true
    · rw [covered_mono hc hx] at hcov
      cases hcov
    · simp [hc, hl]

theorem RemoveAll_ok {deny : Path → Bool} {fs fs1 : FS} {p : Path}
    (h : RemoveAll deny fs p = .ok fs1) : fs1 = cut [p] fs := by
  unfold RemoveAll at h
  split at h
  · cases h
  · simp only [Except.ok.injEq] at h
    subst h
    simp [cut, covered]

/-! ## The callback -/

theorem baseName_snoc (q : Path) (c : String) : baseName (q ++ [c]) = c := by
  simp [baseName]

theorem dropLast_snoc (q : Path) (c : String) : (q ++ [c]).dropLast = q := by
  simp

theorem whiteoutFn_ok {deny : Path → Bool} {fs fs1 : FS} {p : Path} {name : String}
    {err : Option IOErr} (h : whiteoutFn deny fs p (some name) err = .ok fs1) :
    fs1 = cut (fnRoots p name) fs := by
  have key : ∀ r : Except IOErr FS,
      r = (if isWhiteout name = true then
            match RemoveAll deny fs (pathJoin p.dropLast (stripWhiteout name)) with
            | .error e => .error e
            | .ok fs1 => RemoveAll deny fs1 p
          else .ok fs) → r = .ok fs1 → fs1 = cut (fnRoots p name) fs := by
    intro r hr hok
    rw [hr] at hok
    unfold fnRoots
    by_cases hw : isWhiteout name = true
    · rw [if_pos hw] at hok
      rw [if_pos hw]
      cases h1 : RemoveAll deny fs (pathJoin p.dropLast (stripWhiteout name)) with
      | error e => rw [h1] at hok; cases hok
      | ok fs2 =>
        rw [h1] at hok
        have e1 := RemoveAll_ok h1
        have e2 := RemoveAll_ok hok
        rw [e2, e1, cut_cut]
        rfl
    · rw [if_neg hw] at hok
      rw [if_neg hw, cut_nil]
      cases hok
      rfl
  unfold whiteoutFn at h
  cases err with
  | none => exact key _ rfl h
  | some e =>
    cases e with
    | notExist x => exact key _ rfl h
    | notDir x => cases h
    | denied x => cases h
    | notEmpty x => cases h
    | nilInfo => cases h
    | fuel => cases h

theorem near_fnRoots (q : Path) (name : String) : ∀ r ∈ fnRoots q name, near q r := by
  intro r hr
  unfold fnRoots at hr
  split at hr
  · simp only [List.mem_cons, List.mem_singleton, List.not_mem_nil, or_false] at hr
    rcases hr with rfl | rfl
    · right
      unfold pathJoin
      split
      · exact within_trans (within_dropLast_self _) (within_dropLast_self _)
      · split
        · exact within_trans (within_dropLast_self _)
            (within_trans (within_dropLast_self _) (within_dropLast_self _))
        · rw [dropLast_snoc]
          exact within_dropLast_self _
    · left
      exact within_refl _
  · simp at hr

theorem near_of_child {q : Path} {c : String} {r : Path} (h : near (q ++ [c]) r) : near q r := by
  rcases h with h | h
  · left
    exact within_trans (within_append _ _) h
  · by_cases he : r.dropLast = q ++ [c]
    · left
      have : within q r.dropLast = true := by rw [he]; exact within_append _ _
      exact within_trans this (within_dropLast_self _)
    · right
      have := within_dropLast h he
      rwa [dropLast_snoc] at this

theorem covered_fnRoots {q : Path} {name : String} (h : isWhiteout name = true) :
    covered (fnRoots q name) q = true ∧
    covered (fnRoots q name) (pathJoin q.dropLast (stripWhiteout name)) = true := by
  unfold fnRoots
  rw [if_pos h]
  constructor
  · exact (covered_iff _ _).2 ⟨q, by simp, within_refl _⟩
  · exact (covered_iff _ _).2 ⟨_, by simp, within_refl _⟩

theorem fnRoots_of_covered {q : Path} {name : String} {t : Path}
    (h : covered (fnRoots q name) t = true) : isWhiteout name = true := by
  unfold fnRoots at h
  split at h
  · assumption
  · simp [covered] at h

theorem Handled_mono {r1 r2 : List Path} {q q1 t : Path}
    (hr : ∀ x, covered r1 x = true → covered r2 x = true) (hq : within q q1 = true)
    (h : Handled r1 q1 t) : Handled r2 q t := by
  rcases h with ⟨x, h1, h2, h3, h4⟩ | h
  · exact Or.inl ⟨x, within_trans hq h1, h2, h3, hr _ h4⟩
  · exact Or.inr (fun hw => ⟨hr _ (h hw).1, hr _ (h hw).2⟩)

theorem mem_insertName (x n : String) : ∀ l : List String, x ∈ insertName n l ↔ x = n ∨ x ∈ l
  | [] => by simp [insertName]
  | m :: ms => by
    unfold insertName
    split
    · simp
    · simp only [List.mem_cons, mem_insertName x n ms]
      tauto

theorem mem_sortNames (x : String) : ∀ l : List String, x ∈ sortNames l ↔ x ∈ l
  | [] => by simp [sortNames]
  | n :: ns => by
    simp only [sortNames, mem_insertName, mem_sortNames x ns, List.mem_cons]

theorem mem_childNames {fs : FS} {e : Entry} {q : Path} {c : String} (he : e ∈ fs)
    (hp : e.path = q ++ [c]) : c ∈ childNames fs q := by
  simp only [childNames, List.mem_filterMap]
  refine ⟨e, he, ?_⟩
  rw [hp]
  simp

/-! ## The walk -/

theorem readDirNames_ok {fs : FS} {q : Path} {names : List String}
    (h : readDirNames fs q = .ok names) :
    (∀ c ∈ names, ∃ e ∈ fs, e.path = q ++ [c]) ∧
    (∀ e ∈ fs, ∀ c, e.path = q ++ [c] → c ∈ names) := by
  unfold readDirNames at h
  split at h
  · cases h
  · cases h
  · simp only [Except.ok.injEq] at h
    subst h
    constructor
    · intro c hc
      rw [mem_sortNames] at hc
      simp only [childNames, List.mem_filterMap] at hc
      obtain ⟨e, he, hce⟩ := hc
      split at hce
      · rename_i hcond
        refine ⟨e, he, ?_⟩
        rw [← hcond.2]
        exact (List.dropLast_append_getLast? c hce).symm
      · cases hce
    · intro e he c hp
      exact (mem_sortNames _ _).2 (mem_childNames he hp)

theorem fromMarker_fnRoots {q : Path} {name : String} (hname : name = baseName q) {r : Path}
    (hr : r ∈ fnRoots q name) : fromMarker r q := by
  unfold fnRoots at hr
  split at hr
  · rename_i hw
    simp only [List.mem_cons, List.mem_singleton, List.not_mem_nil, or_false] at hr
    rw [hname] at hw hr
    rcases hr with rfl | rfl
    · exact ⟨hw, Or.inr rfl⟩
    · exact ⟨hw, Or.inl rfl⟩
  · simp at hr

theorem whiteoutFn_nil {deny : Path → Bool} {fs : FS} {p x : Path} :
    whiteoutFn deny fs p none (some (.notExist x)) = .error .nilInfo := by
  rfl

theorem isWhiteout_slash : isWhiteout "/" = false := by
  decide

theorem wellFormed_parent {fs : FS} (hwf : wellFormed fs = true) {e : Entry} (he : e ∈ fs)
    {x : Path} (hx : within x e.path = true) (hne : x ≠ e.path) : lstat fs x = some true :=
  (wellFormed_iff fs).1 hwf e he x hx hne

theorem walkList_inv (deny : Path → Bool) (n : Nat) (q : Path)
    (IH : ∀ (fs : FS) (p : Path) (name : String) (dir : Bool) (fs1 : FS),
      wellFormed fs = true → name = baseName p → lstat fs p = some dir →
      walk deny n fs p name dir = .ok fs1 →
      ∃ roots, fs1 = cut roots fs ∧
        (∀ r ∈ roots, near p r ∧
          ∃ m, (m = p ∨ (within p m = true ∧ ∃ e ∈ fs, e.path = m)) ∧ fromMarker r m) ∧
        ∀ t, (t = p ∨ (within p t = true ∧ ∃ e ∈ fs, e.path = t)) → Handled roots p t) :
    ∀ (names : List String) (s s1 : FS),
      wellFormed s = true →
      names.foldlM (fun s c =>
        match lstat s (q ++ [c]) with
        | none => whiteoutFn deny s (q ++ [c]) none (some (.notExist (q ++ [c])))
        | some d => walk deny n s (q ++ [c]) c d) s = .ok s1 →
      ∃ roots, s1 = cut roots s ∧
        (∀ r ∈ roots, near q r ∧
          ∃ m, ((∃ c ∈ names, m = q ++ [c]) ∨ (within q m = true ∧ ∃ e ∈ s, e.path = m)) ∧
            fromMarker r m) ∧
        ∀ c ∈ names, ∀ t,
          (t = q ++ [c] ∨ (within (q ++ [c]) t = true ∧ ∃ e ∈ s, e.path = t)) →
          Handled roots q t := by
  intro names
  induction names with
  | nil =>
    intro s s1 _ h
    simp only [List.foldlM_nil, pure, Except.pure, Except.ok.injEq] at h
    exact ⟨[], by rw [cut_nil, h], by simp, by simp⟩
  | cons c rest ih =>
    intro s s1 hwf h
    simp only [List.foldlM_cons, bind, Except.bind] at h
    cases hl : lstat s (q ++ [c]) with
    | none =>
      rw [hl] at h
      simp only [whiteoutFn_nil] at h
      cases h
    | some d =>
      rw [hl] at h
      simp only at h
      cases hw : walk deny n s (q ++ [c]) c d with
      | error e => rw [hw] at h; cases h
      | ok s2 =>
        rw [hw] at h
        simp only at h
        obtain ⟨rc, hs2, hfc, hcc⟩ := IH s (q ++ [c]) c d s2 hwf (baseName_snoc _ _).symm hl hw
        have hwf2 : wellFormed s2 = true := by rw [hs2]; exact wellFormed_cut _ hwf
        obtain ⟨rr, hs1, hfr, hcr⟩ := ih s2 s1 hwf2 h
        refine ⟨rc ++ rr, by rw [hs1, hs2, cut_cut], ?_, ?_⟩
        · intro r hr
          rcases List.mem_append.1 hr with hr | hr
          · refine ⟨near_of_child (hfc r hr).1, ?_⟩
            obtain ⟨m, hm, hfm⟩ := (hfc r hr).2
            rcases hm with rfl | ⟨hw1, e, he, hp⟩
            · exact ⟨_, Or.inl ⟨c, List.mem_cons_self _ _, rfl⟩, hfm⟩
            · exact ⟨m, Or.inr ⟨within_trans (within_append _ _) hw1, e, he, hp⟩, hfm⟩
          · refine ⟨(hfr r hr).1, ?_⟩
            obtain ⟨m, hm, hfm⟩ := (hfr r hr).2
            rcases hm with ⟨d1, hd1, rfl⟩ | ⟨hw1, e, he, hp⟩
            · exact ⟨_, Or.inl ⟨d1, List.mem_cons_of_mem _ hd1, rfl⟩, hfm⟩
            · rw [hs2] at he
              exact ⟨m, Or.inr ⟨hw1, e, (mem_cut.1 he).1, hp⟩, hfm⟩
        · intro d1 hd1 t ht
          have fromHead : (t = q ++ [c] ∨ (within (q ++ [c]) t = true ∧ ∃ e ∈ s, e.path = t)) →
              Handled (rc ++ rr) q t := fun hh =>
            Handled_mono (fun x hx => covered_append_left rr hx) (within_append _ _) (hcc t hh)
          have fromRest : ∀ d2 ∈ rest,
              (t = q ++ [d2] ∨ (within (q ++ [d2]) t = true ∧ ∃ e ∈ s2, e.path = t)) →
              Handled (rc ++ rr) q t := fun d2 hd2 hh =>
            Handled_mono (fun x hx => covered_append_right rc hx) (within_refl _)
              (hcr d2 hd2 t hh)
          rcases List.mem_cons.1 hd1 with rfl | hd1
          · exact fromHead ht
          · rcases ht with rfl | ⟨hwt, e, he, rfl⟩
            · exact fromRest d1 hd1 (Or.inl rfl)
            · by_cases hcov : covered rc e.path = true
              · by_cases hname : d1 = c
                · rw [hname] at hwt
                  exact fromHead (Or.inr ⟨hwt, e, he, rfl⟩)
                · by_cases hself : e.path = q ++ [d1]
                  · exact fromRest d1 hd1 (Or.inl hself)
                  · obtain ⟨r, hr, hrt⟩ := (covered_iff _ _).1 hcov
                    have hqt : within q e.path = true := within_trans (within_append _ _) hwt
                    have hqne : q ≠ e.path := by
                      intro heq
                      have := within_length hwt
                      rw [← heq] at this
                      simp at this
                    have hcr1 : covered (rc ++ rr) r = true :=
                      covered_append_left rr ((covered_iff _ _).2 ⟨r, hr, within_refl _⟩)
                    rcases within_comparable r q e.path hrt hqt with hrq | hqr
                    · exact Or.inl ⟨q, within_refl _, hqt, hqne, covered_mono hcr1 hrq⟩
                    · by_cases hrne : r = e.path
                      · exfalso
                        rcases (hfc r hr).1 with hn | hn
                        · rw [hrne] at hn
                          rcases within_comparable _ _ _ hn hwt with h1 | h1
                          · exact hname (within_snoc_snoc h1).symm
                          · exact hname (within_snoc_snoc h1)
                        · rw [hrne] at hn
                          have h2 := within_dropLast hwt (Ne.symm hself)
                          exact hname (within_snoc_snoc (within_trans h2 hn))
                      · exact Or.inl ⟨r, hqr, hrt, hrne, hcr1⟩
              · have he2 : e ∈ s2 := by
                  rw [hs2]
                  exact mem_cut.2 ⟨he, by simpa using hcov⟩
                exact fromRest d1 hd1 (Or.inr ⟨hwt, e, he2, rfl⟩)

theorem walk_inv (deny : Path → Bool) :
    ∀ (n : Nat) (fs : FS) (q : Path) (name : String) (dir : Bool) (fs1 : FS),
      wellFormed fs = true → name = baseName q → lstat fs q = some dir →
      walk deny n fs q name dir = .ok fs1 →
      ∃ roots, fs1 = cut roots fs ∧
        (∀ r ∈ roots, near q r ∧
          ∃ m, (m = q ∨ (within q m = true ∧ ∃ e ∈ fs, e.path = m)) ∧ fromMarker r m) ∧
        ∀ t, (t = q ∨ (within q t = true ∧ ∃ e ∈ fs, e.path = t)) → Handled roots q t := by
  intro n
  induction n with
  | zero =>
    intro fs q name dir fs1 _ _ _ h
    simp [walk] at h
  | succ n IH =>
    intro fs q name dir fs1 hwf hname hlq h
    unfold walk at h
    -- the callback has handled `q` itself
    have hself : ∀ more : List Path, Handled (fnRoots q name ++ more) q q := by
      intro more
      right
      intro hw
      rw [← hname] at hw ⊢
      exact ⟨covered_append_left _ (covered_fnRoots hw).1,
        covered_append_left _ (covered_fnRoots hw).2⟩
    -- an entry strictly beneath `q` makes `q` a directory
    have hbelow : ∀ e ∈ fs, within q e.path = true → e.path ≠ q → dir = true := by
      intro e he hw hne
      have := wellFormed_parent hwf he hw (Ne.symm hne)
      rw [hlq] at this
      exact Option.some.inj this
    by_cases hdir : dir = false
    · rw [if_pos hdir] at h
      have hfs1 := whiteoutFn_ok h
      refine ⟨fnRoots q name, hfs1, fun r hr =>
        ⟨near_fnRoots q name r hr, q, Or.inl rfl, fromMarker_fnRoots hname hr⟩, ?_⟩
      intro t ht
      by_cases htq : t = q
      · subst htq
        simpa using hself []
      · rcases ht with rfl | ⟨hw, e, he, rfl⟩
        · exact absurd rfl htq
        · rw [hbelow e he hw htq] at hdir
          cases hdir
    · rw [if_neg hdir] at h
      have hdt : dir = true := by
        cases dir
        · exact absurd rfl hdir
        · rfl
      cases hrd : readDirNames fs q with
      | error err =>
        exfalso
        unfold readDirNames at hrd
        rw [hlq, hdt] at hrd
        cases hrd
      | ok names =>
        rw [hrd] at h
        simp only at h
        cases hfn : whiteoutFn deny fs q (some name) none with
        | error e => rw [hfn] at h; cases h
        | ok fs2 =>
          rw [hfn] at h
          simp only at h
          have hfs2 := whiteoutFn_ok hfn
          have hwf2 : wellFormed fs2 = true := by rw [hfs2]; exact wellFormed_cut _ hwf
          obtain ⟨hnames1, hnames2⟩ := readDirNames_ok hrd
          obtain ⟨rl, hs1, hfr, hcr⟩ := walkList_inv deny n q IH names fs2 fs1 hwf2 h
          refine ⟨fnRoots q name ++ rl, by rw [hs1, hfs2, cut_cut], ?_, ?_⟩
          · intro r hr
            rcases List.mem_append.1 hr with hr | hr
            · exact ⟨near_fnRoots q name r hr, q, Or.inl rfl, fromMarker_fnRoots hname hr⟩
            · refine ⟨(hfr r hr).1, ?_⟩
              obtain ⟨m, hm, hfm⟩ := (hfr r hr).2
              rcases hm with ⟨d, hd, rfl⟩ | ⟨hw, e, he, hp⟩
              · obtain ⟨e, he, hp⟩ := hnames1 d hd
                exact ⟨_, Or.inr ⟨within_append _ _, e, he, hp⟩, hfm⟩
              · rw [hfs2] at he
                exact ⟨m, Or.inr ⟨hw, e, (mem_cut.1 he).1, hp⟩, hfm⟩
          · intro t ht
            by_cases htq : t = q
            · subst htq
              exact hself _
            · rcases ht with rfl | ⟨hw, e, he, rfl⟩
              · exact absurd rfl htq
              · by_cases hc : covered (fnRoots q name) e.path = true
                · -- the callback on `q` removed `q` with everything beneath it
                  have hwn := fnRoots_of_covered hc
                  exact Or.inl ⟨q, within_refl _, hw, Ne.symm htq,
                    covered_append_left _ (covered_fnRoots hwn).1⟩
                · have he2 : e ∈ fs2 := by
                    rw [hfs2]
                    exact mem_cut.2 ⟨he, by simpa using hc⟩
                  obtain ⟨s, hs⟩ := (within_iff_append _ _).1 hw
                  cases s with
                  | nil => simp at hs; exact absurd hs htq
                  | cons c s1 =>
                    have hwc : within (q ++ [c]) e.path = true := by
                      rw [hs]
                      exact (within_iff_append _ _).2 ⟨s1, by simp⟩
                    have hex : ∃ x ∈ fs, x.path = q ++ [c] := by
                      by_cases hs1 : e.path = q ++ [c]
                      · exact ⟨e, he, hs1⟩
                      · have := wellFormed_parent hwf he hwc (Ne.symm hs1)
                        obtain ⟨x, hx, hxp, _⟩ := lstat_some_mem (by simp) this
                        exact ⟨x, hx, hxp⟩
                    obtain ⟨x, hx, hxp⟩ := hex
                    have hcn := hnames2 x hx c hxp
                    have := hcr c hcn e.path (Or.inr ⟨hwc, e, he2, rfl⟩)
                    exact Handled_mono (fun y hy => covered_append_right _ hy)
                      (within_refl _) this

/-! ## Whiteout resolution -/

theorem deleteWhiteouts_inv {deny : Path → Bool} {fs fs1 : FS} {root : Path}
    (hwf : wellFormed fs = true) (h : deleteWhiteouts deny fs root = .ok fs1) :
    ∃ roots, fs1 = cut roots fs ∧
      (∀ t, (t = root ∨ (within root t = true ∧ ∃ e ∈ fs, e.path = t)) →
        Handled roots root t) ∧
      ∀ r ∈ roots, ∃ m, (m = root ∨ (within root m = true ∧ ∃ e ∈ fs, e.path = m)) ∧
        fromMarker r m := by
  unfold deleteWhiteouts at h
  cases hl : lstat fs root with
  | none =>
    rw [hl] at h
    simp [whiteoutFn] at h
  | some dir =>
    rw [hl] at h
    simp only at h
    obtain ⟨roots, h1, h2, h3⟩ := walk_inv deny _ fs root _ dir fs1 hwf rfl hl h
    exact ⟨roots, h1, h3, fun r hr => (h2 r hr).2⟩

theorem pathJoin_within (p : Path) (n : String) : within (pathJoin p n) (p ++ [n]) = true := by
  unfold pathJoin
  split
  · exact within_append _ _
  · split
    · exact within_trans (within_dropLast_self _) (within_append _ _)
    · exact within_refl _

/-- Every marker of the walked tree has its shadowed sibling removed, whatever
else the tree holds. -/
theorem shadowed_gone {deny : Path → Bool} {fs fs1 : FS} {root : Path}
    (hwf : wellFormed fs = true) (h : deleteWhiteouts deny fs root = .ok fs1)
    {m : Entry} (hm : m ∈ fs) (hroot : within root m.path = true)
    (hw : isWhiteout (baseName m.path) = true) :
    ∀ e ∈ fs1, within (m.path.dropLast ++ [stripWhiteout (baseName m.path)]) e.path = false := by
  obtain ⟨roots, hcut, hcov, _⟩ := deleteWhiteouts_inv hwf h
  intro e he
  rw [hcut] at he
  obtain ⟨_, hnc⟩ := mem_cut.1 he
  by_contra hcon
  have hin : within (m.path.dropLast ++ [stripWhiteout (baseName m.path)]) e.path = true := by
    simpa using hcon
  have key : covered roots (m.path.dropLast ++ [stripWhiteout (baseName m.path)]) = true := by
    rcases hcov m.path (Or.inr ⟨hroot, m, hm, rfl⟩) with ⟨x, _, hx2, hx3, hx4⟩ | h2
    · exact covered_mono hx4 (within_trans (within_dropLast hx2 hx3) (within_append _ _))
    · exact covered_mono (h2 hw).2 (pathJoin_within _ _)
  rw [covered_mono key hin] at hnc
  cases hnc

/-- C3: when `deleteWhiteouts` returns without error on a tree, no entry at or
beneath the walked directory has a base name starting with the prefix
`.wh.`. -/
theorem C3_no_marker_left (deny : Path → Bool) (fs fs1 : FS) (root : Path)
    (hwf : wellFormed fs = true) (h : deleteWhiteouts deny fs root = .ok fs1) :
    ∀ e ∈ fs1, within root e.path = true → isWhiteout (baseName e.path) = false := by
  obtain ⟨roots, hcut, hcov, _⟩ := deleteWhiteouts_inv hwf h
  intro e he hroot
  rw [hcut] at he
  obtain ⟨hefs, hnc⟩ := mem_cut.1 he
  by_contra hcon
  have hw : isWhiteout (baseName e.path) = true := by simpa using hcon
  have key : covered roots e.path = true := by
    rcases hcov e.path (Or.inr ⟨hroot, e, hefs, rfl⟩) with ⟨x, _, hx2, _, hx4⟩ | h2
    · exact covered_mono hx4 hx2
    · exact (h2 hw).1
  rw [key] at hnc
  cases hnc

/-! ## Layer merge -/

theorem mem_layerEntries {dir : Path} {l : List Entry} {x : Entry} :
    x ∈ layerEntries dir l ↔
      x = { path := dir ++ ["layer"], isDir := true, content := "", mtime := 0 } ∨
      ∃ e ∈ l, x = { path := dir ++ ["layer"] ++ e.path, isDir := e.isDir,
                     content := e.content, mtime := e.mtime } := by
  simp only [layerEntries, List.map_cons, List.mem_cons, List.mem_map, List.append_nil]
  constructor
  · rintro (h | ⟨e, he, rfl⟩)
    · exact Or.inl h
    · exact Or.inr ⟨e, he, rfl⟩
  · rintro (h | ⟨e, he, rfl⟩)
    · exact Or.inl h
    · exact Or.inr ⟨e, he, rfl⟩

theorem mem_transferred {fs : FS} {es : List Entry} {x : Entry} :
    x ∈ transferred fs es ↔ x ∈ es ∧ quickCheck fs x = false := by
  simp [transferred, List.mem_filter]

theorem quickCheck_exists {fs : FS} {e : Entry} (h : quickCheck fs e = true) :
    ∃ x ∈ fs, x.path = e.path := by
  unfold quickCheck at h
  split at h
  · cases h
  · rename_i x hx
    exact ⟨x, List.mem_of_find?_eq_some hx, by simpa using List.find?_some hx⟩

theorem rsync_ok {fs t : FS} {l : List Entry} {dir : Path} (h : rsync fs (some l) dir = .ok t) :
    rsyncBlocked fs (layerEntries dir l) = false ∧
    t = transferred fs (layerEntries dir l) ++
      fs.filter (fun x =>
        !(transferred fs (layerEntries dir l)).any (fun e => decide (e.path = x.path))) := by
  simp only [rsync] at h
  split at h
  · cases h
  · rename_i hb
    simp only [Except.ok.injEq] at h
    exact ⟨by simpa using hb, h.symm⟩

theorem mem_rsync {fs t : FS} {l : List Entry} {dir : Path} (h : rsync fs (some l) dir = .ok t)
    (x : Entry) :
    x ∈ t ↔ x ∈ transferred fs (layerEntries dir l) ∨
      (x ∈ fs ∧ ∀ e ∈ transferred fs (layerEntries dir l), e.path ≠ x.path) := by
  rw [(rsync_ok h).2]
  simp [List.mem_append, List.mem_filter]

/-- The copy of a layer returns exactly when no regular file of the layer
lands on a directory that still has entries. -/
theorem rsync_returns_iff (fs : FS) (l : List Entry) (dir : Path) :
    (∃ t, rsync fs (some l) dir = .ok t) ↔ rsyncBlocked fs (layerEntries dir l) = false := by
  constructor
  · rintro ⟨t, h⟩
    exact (rsync_ok h).1
  · intro h
    simp only [rsync, h]
    exact ⟨_, rfl⟩

/-- A path that the destination or the copied layer has is in the result of
`rsync`. -/
theorem rsync_keeps_path {fs t : FS} {l : List Entry} {dir : Path}
    (h : rsync fs (some l) dir = .ok t) {y : Path}
    (hy : (∃ x ∈ fs, x.path = y) ∨ ∃ e ∈ layerEntries dir l, e.path = y) :
    ∃ x ∈ t, x.path = y := by
  by_cases hsent : ∃ e ∈ transferred fs (layerEntries dir l), e.path = y
  · obtain ⟨e, he, hp⟩ := hsent
    exact ⟨e, (mem_rsync h e).2 (Or.inl he), hp⟩
  · have hfs : ∃ x ∈ fs, x.path = y := by
      rcases hy with hy | ⟨e, he, hp⟩
      · exact hy
      · by_cases hq : quickCheck fs e = true
        · obtain ⟨x, hx, hxp⟩ := quickCheck_exists hq
          exact ⟨x, hx, by rw [hxp, hp]⟩
        · exact absurd ⟨e, mem_transferred.2 ⟨he, by simpa using hq⟩, hp⟩ hsent
    obtain ⟨x, hx, hxp⟩ := hfs
    refine ⟨x, (mem_rsync h x).2 (Or.inr ⟨hx, fun e he hp => hsent ⟨e, he, ?_⟩⟩), hxp⟩
    rw [hp, hxp]

theorem syncLayers_nil (dir : Path) : syncLayers dir [] = .ok (mkdirAll dir) := by
  rfl

theorem syncLayers_cons (dir : Path) (l : Option (List Entry)) (ls : List (Option (List Entry))) :
    syncLayers dir (l :: ls) =
      match syncLayers dir ls with
      | .error e => .error e
      | .ok fs => rsync fs l dir := by
  simp only [syncLayers, List.reverse_cons, List.foldlM_append, List.foldlM_cons, List.foldlM_nil,
    bind, Except.bind, pure, Except.pure]
  cases List.foldlM (fun fs layer => rsync fs layer dir) (mkdirAll dir) ls.reverse with
  | error e => rfl
  | ok fs =>
    simp only
    cases rsync fs l dir <;> rfl

theorem syncLayers_cons_ok {dir : Path} {l : List Entry} {ls : List (List Entry)} {t : FS}
    (h : syncLayers dir ((l :: ls).map some) = .ok t) :
    ∃ t0, syncLayers dir (ls.map some) = .ok t0 ∧ rsync t0 (some l) dir = .ok t := by
  rw [List.map_cons, syncLayers_cons] at h
  cases h0 : syncLayers dir (ls.map some) with
  | error e => rw [h0] at h; cases h
  | ok t0 =>
    rw [h0] at h
    exact ⟨t0, rfl, h⟩

theorem mkdirAll_path_length {dir : Path} {x : Entry} (h : x ∈ mkdirAll dir) :
    x.path.length ≤ dir.length ∧ x.isDir = true ∧ within x.path dir = true ∧ x.path ≠ [] := by
  simp only [mkdirAll, List.mem_map, List.mem_range] at h
  obtain ⟨i, hi, rfl⟩ := h
  refine ⟨?_, rfl, ?_, ?_⟩
  · simp only [List.length_take]
    omega
  · exact (within_iff_append _ _).2 ⟨dir.drop (i + 1), (List.take_append_drop _ _).symm⟩
  · intro h0
    have := congrArg List.length h0
    simp only [List.length_take, List.length_nil] at this
    omega

/-- The merged tree has an entry at a relative path exactly when some layer
defines that path. -/
theorem merge_exists (dir : Path) (rel : Path) (hrel : rel ≠ []) :
    ∀ (layers : List (List Entry)) (t : FS), syncLayers dir (layers.map some) = .ok t →
      ((∃ x ∈ t, x.path = dir ++ ["layer"] ++ rel) ↔ ∃ l ∈ layers, ∃ e ∈ l, e.path = rel) := by
  intro layers
  induction layers with
  | nil =>
    intro t h
    rw [List.map_nil, syncLayers_nil] at h
    cases h
    constructor
    · rintro ⟨x, hx, hp⟩
      have := (mkdirAll_path_length hx).1
      rw [hp] at this
      simp only [List.length_append, List.length_singleton] at this
      omega
    · rintro ⟨l, hl, _⟩
      simp at hl
  | cons l ls ih =>
    intro t h
    obtain ⟨t0, h0, hr⟩ := syncLayers_cons_ok h
    constructor
    · rintro ⟨x, hx, hp⟩
      rcases (mem_rsync hr x).1 hx with hxt | ⟨hxf, _⟩
      · rcases mem_layerEntries.1 (mem_transferred.1 hxt).1 with rfl | ⟨e, he, rfl⟩
        · exfalso
          simp only at hp
          have := congrArg List.length hp
          simp only [List.length_append, List.length_singleton] at this
          have : rel.length = 0 := by omega
          exact hrel (List.eq_nil_of_length_eq_zero this)
        · simp only at hp
          exact ⟨l, List.mem_cons_self _ _, e, he, List.append_cancel_left hp⟩
      · obtain ⟨l1, hl1, e, he, hpe⟩ := (ih t0 h0).1 ⟨x, hxf, hp⟩
        exact ⟨l1, List.mem_cons_of_mem _ hl1, e, he, hpe⟩
    · rintro ⟨l1, hl1, e, he, hpe⟩
      apply rsync_keeps_path hr
      rcases List.mem_cons.1 hl1 with rfl | hl1
      · right
        exact ⟨_, mem_layerEntries.2 (Or.inr ⟨e, he, rfl⟩), by rw [hpe]⟩
      · left
        exact (ih t0 h0).2 ⟨l1, hl1, e, he, hpe⟩

/-! ## The merged state is a tree -/

theorem lstat_append_of_none {a : FS} (b : FS) {y : Path} (h : ∀ e ∈ a, e.path ≠ y) :
    lstat (a ++ b) y = lstat b y := by
  unfold lstat
  split
  · rfl
  · rw [List.find?_append, List.find?_eq_none.2 (fun e he => by simpa using h e he)]
    rfl

theorem lstat_append_of_some {a : FS} (b : FS) {y : Path} {k : Bool} (hy : y ≠ [])
    (h : lstat a y = some k) : lstat (a ++ b) y = some k := by
  unfold lstat at h ⊢
  rw [if_neg hy] at h ⊢
  rw [List.find?_append]
  cases hf : List.find? (fun e => decide (e.path = y)) a with
  | none => rw [hf] at h; cases h
  | some e => rw [hf] at h; exact h

theorem lstat_filter_path (P : Path → Bool) (fs : FS) (y : Path) (hP : P y = true) :
    lstat (fs.filter (fun x => P x.path)) y = lstat fs y := by
  unfold lstat
  split
  · rfl
  · congr 1
    induction fs with
    | nil => rfl
    | cons e fs ih =>
      by_cases he : e.path = y
      · rw [List.filter_cons_of_pos (by rw [he]; exact hP),
          List.find?_cons_of_pos _ (by simpa using he), List.find?_cons_of_pos _ (by simpa using he)]
      · rw [List.find?_cons_of_neg _ (by simpa using he)]
        by_cases hp : P e.path = true
        · rw [List.filter_cons_of_pos (by exact hp), List.find?_cons_of_neg _ (by simpa using he), ih]
        · rw [List.filter_cons_of_neg (by exact hp), ih]

theorem lstat_all_dirs {fs : FS} {q : Path} (hex : ∃ e ∈ fs, e.path = q)
    (hall : ∀ e ∈ fs, e.path = q → e.isDir = true) : lstat fs q = some true := by
  by_cases hq : q = []
  · simp [lstat, hq]
  · obtain ⟨e, he, hp⟩ := hex
    have hne : lstat fs q ≠ none := by rw [← hp]; exact lstat_ne_none_of_mem he
    cases hl : lstat fs q with
    | none => exact absurd hl hne
    | some k =>
      obtain ⟨e1, he1, hp1, hk⟩ := lstat_some_mem hq hl
      rw [← hk, hall e1 he1 hp1]

theorem lstat_layerEntries (dir : Path) (l : List Entry) (r : Path) (hr : r ≠ []) :
    lstat (layerEntries dir l) (dir ++ ["layer"] ++ r) = lstat l r := by
  have hne : dir ++ ["layer"] ++ r ≠ [] := by simp
  have hhead : ¬ (dir ++ ["layer"] ++ ([] : Path) = dir ++ ["layer"] ++ r) := by
    intro h
    exact hr (List.append_cancel_left h).symm
  unfold lstat layerEntries
  rw [if_neg hne, if_neg hr, List.map_cons, List.find?_cons_of_neg _ (by simpa using hhead)]
  induction l with
  | nil => rfl
  | cons e l ih =>
    by_cases he : e.path = r
    · rw [List.map_cons, List.find?_cons_of_pos _ (by simp [he]),
        List.find?_cons_of_pos _ (by simpa using he)]
      rfl
    · rw [List.map_cons, List.find?_cons_of_neg _ (by simpa using he),
        List.find?_cons_of_neg _ (by simpa using he), ih]

theorem lstat_layerEntries_root (dir : Path) (l : List Entry) :
    lstat (layerEntries dir l) (dir ++ ["layer"]) = some true := by
  unfold lstat layerEntries
  rw [if_neg (by simp), List.map_cons, List.find?_cons_of_pos _ (by simp)]
  rfl

theorem layerEntries_path {dir : Path} {l : List Entry} {e : Entry}
    (he : e ∈ layerEntries dir l) : ∃ r, e.path = dir ++ ["layer"] ++ r := by
  rcases mem_layerEntries.1 he with rfl | ⟨y, _, rfl⟩
  · exact ⟨[], by simp⟩
  · exact ⟨y.path, rfl⟩

theorem lstat_rsync_of_none {fs t : FS} {l : List Entry} {dir : Path}
    (h : rsync fs (some l) dir = .ok t) {y : Path}
    (hy : ∀ e ∈ layerEntries dir l, e.path ≠ y) : lstat t y = lstat fs y := by
  have hy1 : ∀ e ∈ transferred fs (layerEntries dir l), e.path ≠ y :=
    fun e he => hy e (mem_transferred.1 he).1
  rw [(rsync_ok h).2, lstat_append_of_none _ hy1]
  exact lstat_filter_path
    (fun p => !(transferred fs (layerEntries dir l)).any (fun e => decide (e.path = p))) fs y
    (by simpa using hy1)

theorem lstat_transferred_dir (fs : FS) (y : Path) (hy : y ≠ []) :
    ∀ es : List Entry, lstat es y = some true → lstat (transferred fs es) y = some true := by
  intro es
  induction es with
  | nil =>
    intro h
    simp [lstat, hy] at h
  | cons e es ih =>
    intro h
    unfold lstat at h ih ⊢
    rw [if_neg hy] at h ih ⊢
    unfold transferred at ih ⊢
    by_cases he : e.path = y
    · rw [List.find?_cons_of_pos _ (by simpa using he)] at h
      have hd : e.isDir = true := by simpa using h
      have hq : quickCheck fs e = false := by
        unfold quickCheck
        split
        · rfl
        · simp [hd]
      rw [List.filter_cons_of_pos (by simp [hq]), List.find?_cons_of_pos _ (by simpa using he)]
      simpa using hd
    · rw [List.find?_cons_of_neg _ (by simpa using he)] at h
      by_cases hq : quickCheck fs e = true
      · rw [List.filter_cons_of_neg (by simp [hq])]
        have := ih h
        rwa [if_neg hy] at this
      · rw [List.filter_cons_of_pos (by simpa using hq),
          List.find?_cons_of_neg _ (by simpa using he)]
        have := ih h
        rwa [if_neg hy] at this

theorem lstat_rsync_of_dir {fs t : FS} {l : List Entry} {dir : Path}
    (h : rsync fs (some l) dir = .ok t) {y : Path} (hy : y ≠ [])
    (hk : lstat (layerEntries dir l) y = some true) : lstat t y = some true := by
  rw [(rsync_ok h).2]
  exact lstat_append_of_some _ hy (lstat_transferred_dir fs y hy _ hk)

theorem layerOK_iff (l : List Entry) :
    layerOK l = true ↔ wellFormed l = true ∧ ∀ e ∈ l, e.path ≠ [] := by
  simp [layerOK]

theorem lstat_mkdirAll {dir y : Path} (hy : y ≠ []) (hw : within y dir = true) :
    lstat (mkdirAll dir) y = some true := by
  refine lstat_all_dirs ?_ (fun e he _ => (mkdirAll_path_length he).2.1)
  obtain ⟨s, hs⟩ := (within_iff_append _ _).1 hw
  have hpos : 0 < y.length := List.length_pos.2 hy
  refine ⟨⟨dir.take (y.length - 1 + 1), true, "", 0⟩, ?_, ?_⟩
  · simp only [mkdirAll, List.mem_map, List.mem_range]
    refine ⟨y.length - 1, ?_, rfl⟩
    rw [hs, List.length_append]
    omega
  · show dir.take (y.length - 1 + 1) = y
    rw [Nat.sub_add_cancel hpos, hs, List.take_left']
    rfl

theorem mkdirAll_inv (dir : Path) :
    wellFormed (mkdirAll dir) = true ∧ lstat (mkdirAll dir) dir = some true := by
  constructor
  · rw [wellFormed_iff]
    intro e he x hx _
    by_cases hx0 : x = []
    · simp [lstat, hx0]
    · exact lstat_mkdirAll hx0 (within_trans hx (mkdirAll_path_length he).2.2.1)
  · by_cases hd : dir = []
    · simp [lstat, hd]
    · exact lstat_mkdirAll hd (within_refl _)

theorem rsync_inv {fs t : FS} {l : List Entry} {dir : Path} (hwf : wellFormed fs = true)
    (hdir : lstat fs dir = some true) (hl : layerOK l = true)
    (h : rsync fs (some l) dir = .ok t) :
    wellFormed t = true ∧ lstat t dir = some true := by
  obtain ⟨hwl, _⟩ := (layerOK_iff l).1 hl
  have hnoDir : ∀ y, within y dir = true → ∀ e ∈ layerEntries dir l, e.path ≠ y := by
    intro y hy e he hp
    obtain ⟨r, hr⟩ := layerEntries_path he
    have := within_length hy
    rw [← hp, hr] at this
    simp only [List.length_append, List.length_singleton] at this
    omega
  have hfsAbove : ∀ y, within y dir = true → lstat fs y = some true := by
    intro y hy
    by_cases hyd : y = dir
    · rw [hyd]; exact hdir
    · by_cases hd0 : dir = []
      · exfalso
        subst hd0
        have := within_length hy
        simp only [List.length_nil, Nat.le_zero_eq] at this
        exact hyd (List.eq_nil_of_length_eq_zero this)
      · obtain ⟨ed, hed, hpd, _⟩ := lstat_some_mem hd0 hdir
        exact wellFormed_parent hwf hed (by rw [hpd]; exact hy) (by rw [hpd]; exact hyd)
  refine ⟨?_, ?_⟩
  · rw [wellFormed_iff]
    intro x hx y hy hyne
    by_cases hy0 : y = []
    · simp [lstat, hy0]
    rcases (mem_rsync h x).1 hx with hxt | ⟨hxf, _⟩
    · have hxe := (mem_transferred.1 hxt).1
      obtain ⟨r, hr⟩ := layerEntries_path hxe
      by_cases hDy : within (dir ++ ["layer"]) y = true
      · obtain ⟨r1, hr1⟩ := (within_iff_append _ _).1 hDy
        by_cases hr10 : r1 = []
        · subst hr10
          rw [hr1, List.append_nil]
          exact lstat_rsync_of_dir h (by simp) (lstat_layerEntries_root dir l)
        · rcases mem_layerEntries.1 hxe with rfl | ⟨e, he, rfl⟩
          · exfalso
            have := within_length hy
            rw [hr1] at this
            simp only [List.length_append, List.length_singleton] at this
            have : r1.length = 0 := by omega
            exact hr10 (List.eq_nil_of_length_eq_zero this)
          · simp only at hy hyne
            have hw1 : within r1 e.path = true := by
              obtain ⟨s, hs⟩ := (within_iff_append _ _).1 hy
              rw [hr1] at hs
              have hs1 : (dir ++ ["layer"]) ++ e.path = (dir ++ ["layer"]) ++ (r1 ++ s) := by
                rw [hs, List.append_assoc (dir ++ ["layer"]) r1 s]
              exact (within_iff_append _ _).2 ⟨s, List.append_cancel_left hs1⟩
            have hne1 : r1 ≠ e.path := by
              intro heq
              exact hyne (by rw [hr1, heq])
            have := wellFormed_parent hwl he hw1 hne1
            rw [hr1]
            exact lstat_rsync_of_dir h (by simp)
              (by rw [lstat_layerEntries dir l r1 hr10]; exact this)
      · have hDx : within (dir ++ ["layer"]) x.path = true := by
          rw [hr]; exact within_append _ _
        have hyD : within y (dir ++ ["layer"]) = true := by
          rcases within_comparable _ _ _ hy hDx with h1 | h1
          · exact h1
          · exact absurd h1 hDy
        have hyd : within y dir = true := by
          have := within_dropLast hyD (by rintro rfl; exact hDy (within_refl _))
          rwa [dropLast_snoc] at this
        rw [lstat_rsync_of_none h (hnoDir y hyd)]
        exact hfsAbove y hyd
    · have hfy := wellFormed_parent hwf hxf hy hyne
      by_cases hex : ∃ e ∈ layerEntries dir l, e.path = y
      · obtain ⟨e1, he1, hp1⟩ := hex
        cases hk : lstat (layerEntries dir l) y with
        | none => exact absurd hk (by rw [← hp1]; exact lstat_ne_none_of_mem he1)
        | some k =>
          cases k with
          | true => exact lstat_rsync_of_dir h hy0 hk
          | false =>
            exfalso
            obtain ⟨e2, he2, hp2, hd2⟩ := lstat_some_mem hy0 hk
            have hb := (rsync_ok h).1
            have hblocked : rsyncBlocked fs (layerEntries dir l) = true := by
              simp only [rsyncBlocked, List.any_eq_true, Bool.and_eq_true, Bool.not_eq_true',
                decide_eq_true_eq]
              exact ⟨e2, he2, ⟨hd2, by rw [hp2]; exact hfy⟩, x, hxf,
                by rw [hp2]; exact hy, by rw [hp2]; exact Ne.symm hyne⟩
            rw [hblocked] at hb
            cases hb
      · have hex1 : ∀ e ∈ layerEntries dir l, e.path ≠ y := fun e he hp => hex ⟨e, he, hp⟩
        rw [lstat_rsync_of_none h hex1]
        exact hfy
  · rw [lstat_rsync_of_none h (hnoDir dir (within_refl _))]
    exact hdir

theorem sync_inv (dir : Path) :
    ∀ (layers : List (List Entry)) (t : FS), (∀ l ∈ layers, layerOK l = true) →
      syncLayers dir (layers.map some) = .ok t →
      wellFormed t = true ∧ lstat t dir = some true := by
  intro layers
  induction layers with
  | nil =>
    intro t _ h
    rw [List.map_nil, syncLayers_nil] at h
    cases h
    exact mkdirAll_inv dir
  | cons l ls ih =>
    intro t hl h
    obtain ⟨t0, h0, hr⟩ := syncLayers_cons_ok h
    obtain ⟨hwf0, hd0⟩ := ih t0 (fun l1 h1 => hl l1 (List.mem_cons_of_mem _ h1)) h0
    exact rsync_inv hwf0 hd0 (hl l (List.mem_cons_self _ _)) hr

/-! ## The recursion bound

The walk of a tree never stops for lack of recursion depth: every error of
`deleteWhiteouts` is an error of the walk itself. -/

theorem RemoveAll_ne_fuel (deny : Path → Bool) (fs : FS) (p : Path) :
    RemoveAll deny fs p ≠ .error .fuel := by
  unfold RemoveAll
  split <;> simp

theorem whiteoutFn_ne_fuel (deny : Path → Bool) (fs : FS) (p : Path) (info : Option String)
    (err : Option IOErr) (herr : err ≠ some .fuel) :
    whiteoutFn deny fs p info err ≠ .error .fuel := by
  have key : (match info with
      | none => (.error .nilInfo : Except IOErr FS)
      | some name =>
        if isWhiteout name = true then
          match RemoveAll deny fs (pathJoin p.dropLast (stripWhiteout name)) with
          | .error e => .error e
          | .ok fs1 => RemoveAll deny fs1 p
        else .ok fs) ≠ .error .fuel := by
    cases info with
    | none => simp
    | some name =>
      simp only
      split
      · cases h1 : RemoveAll deny fs (pathJoin p.dropLast (stripWhiteout name)) with
        | error e =>
          simp only
          intro h
          simp only [Except.error.injEq] at h
          rw [h] at h1
          exact RemoveAll_ne_fuel _ _ _ h1
        | ok fs2 => exact RemoveAll_ne_fuel _ _ _
      · simp
  unfold whiteoutFn
  cases err with
  | none => exact key
  | some e =>
    cases e with
    | notExist x => exact key
    | notDir x => simp
    | denied x => simp
    | notEmpty x => simp
    | nilInfo => simp
    | fuel => exact absurd rfl herr

theorem length_le_depth {fs : FS} {e : Entry} (he : e ∈ fs) : e.path.length ≤ depth fs := by
  unfold depth
  have key : ∀ (l : List Nat) (a x : Nat), (x ≤ a ∨ x ∈ l) → x ≤ l.foldl max a := by
    intro l
    induction l with
    | nil =>
      intro a x h
      rcases h with h | h
      · exact h
      · simp at h
    | cons b l ih =>
      intro a x h
      rw [List.foldl_cons]
      apply ih
      rcases h with h | h
      · exact Or.inl (le_trans h (le_max_left _ _))
      · rcases List.mem_cons.1 h with rfl | h
        · exact Or.inl (le_max_right _ _)
        · exact Or.inr h
  exact key _ 0 _ (Or.inr (List.mem_map.2 ⟨e, he, rfl⟩))

theorem walkList_fuel (deny : Path → Bool) (n : Nat) (q : Path)
    (IH : ∀ (fs : FS) (p : Path) (name : String) (dir : Bool),
      wellFormed fs = true → name = baseName p → lstat fs p = some dir → 0 < n →
      (∀ e ∈ fs, within p e.path = true → e.path.length < p.length + n) →
      walk deny n fs p name dir ≠ .error .fuel) :
    ∀ (names : List String) (s : FS),
      wellFormed s = true → (names ≠ [] → 0 < n) →
      (∀ e ∈ s, within q e.path = true → e.path.length < q.length + (n + 1)) →
      names.foldlM (fun s c =>
        match lstat s (q ++ [c]) with
        | none => whiteoutFn deny s (q ++ [c]) none (some (.notExist (q ++ [c])))
        | some d => walk deny n s (q ++ [c]) c d) s ≠ .error .fuel := by
  intro names
  induction names with
  | nil =>
    intro s _ _ _
    simp [pure, Except.pure]
  | cons c rest ih =>
    intro s hwf hn hbound
    have hn0 : 0 < n := hn (by simp)
    simp only [List.foldlM_cons, bind, Except.bind]
    cases hl : lstat s (q ++ [c]) with
    | none =>
      simp only [whiteoutFn_nil]
      simp
    | some d =>
      simp only
      have hb : ∀ e ∈ s, within (q ++ [c]) e.path = true →
          e.path.length < (q ++ [c]).length + n := by
        intro e he hw
        have := hbound e he (within_trans (within_append _ _) hw)
        simp only [List.length_append, List.length_singleton]
        omega
      have hne := IH s (q ++ [c]) c d hwf (baseName_snoc _ _).symm hl hn0 hb
      cases hw : walk deny n s (q ++ [c]) c d with
      | error e =>
        simp only
        intro h
        simp only [Except.error.injEq] at h
        rw [h] at hw
        exact hne hw
      | ok s2 =>
        simp only
        obtain ⟨rc, hcut, _, _⟩ := walk_inv deny n s (q ++ [c]) c d s2 hwf
          (baseName_snoc _ _).symm hl hw
        refine ih s2 (by rw [hcut]; exact wellFormed_cut _ hwf) (fun _ => hn0) ?_
        intro e he
        rw [hcut] at he
        exact hbound e (mem_cut.1 he).1

theorem walk_fuel (deny : Path → Bool) :
    ∀ (n : Nat) (fs : FS) (q : Path) (name : String) (dir : Bool),
      wellFormed fs = true → name = baseName q → lstat fs q = some dir → 0 < n →
      (∀ e ∈ fs, within q e.path = true → e.path.length < q.length + n) →
      walk deny n fs q name dir ≠ .error .fuel := by
  intro n
  induction n with
  | zero =>
    intro fs q name dir _ _ _ h0 _
    omega
  | succ n IH =>
    intro fs q name dir hwf hname hlq _ hbound
    unfold walk
    by_cases hdir : dir = false
    · rw [if_pos hdir]
      exact whiteoutFn_ne_fuel _ _ _ _ _ (by simp)
    · rw [if_neg hdir]
      cases hrd : readDirNames fs q with
      | error err =>
        simp only
        refine whiteoutFn_ne_fuel _ _ _ _ _ ?_
        unfold readDirNames at hrd
        split at hrd
        · simp only [Except.error.injEq] at hrd
          rw [← hrd]
          simp
        · simp only [Except.error.injEq] at hrd
          rw [← hrd]
          simp
        · cases hrd
      | ok names =>
        simp only
        cases hfn : whiteoutFn deny fs q (some name) none with
        | error e =>
          simp only
          intro h
          simp only [Except.error.injEq] at h
          rw [h] at hfn
          exact whiteoutFn_ne_fuel _ _ _ _ _ (by simp) hfn
        | ok fs2 =>
          simp only
          have hfs2 := whiteoutFn_ok hfn
          refine walkList_fuel deny n q IH names fs2 (by rw [hfs2]; exact wellFormed_cut _ hwf)
            ?_ ?_
          · intro hne
            obtain ⟨c, hc⟩ := List.exists_mem_of_ne_nil _ hne
            obtain ⟨e, he, hp⟩ := (readDirNames_ok hrd).1 c hc
            have := hbound e he (by rw [hp]; exact within_append _ _)
            rw [hp] at this
            simp only [List.length_append, List.length_singleton] at this
            omega
          · intro e he
            rw [hfs2] at he
            exact hbound e (mem_cut.1 he).1

/-- On a tree `deleteWhiteouts` never stops for lack of recursion depth. -/
theorem deleteWhiteouts_fuel (deny : Path → Bool) (fs : FS) (root : Path)
    (hwf : wellFormed fs = true) : deleteWhiteouts deny fs root ≠ .error .fuel := by
  unfold deleteWhiteouts
  cases hl : lstat fs root with
  | none =>
    simp only [whiteoutFn_nil]
    simp
  | some dir =>
    simp only
    refine walk_fuel deny _ fs root _ dir hwf rfl hl (by omega) ?_
    intro e he _
    have := length_le_depth he
    omega

/-! ## Whiteouts across layers -/

theorem startsWith_append : ∀ (a b : List Char), startsWith a (a ++ b) = true
  | [], _ => by simp [startsWith]
  | c :: a, b => by simp [startsWith, startsWith_append a b]

theorem isWhiteout_append (n : String) : isWhiteout (WHITEOUT ++ n) = true := by
  simp only [isWhiteout, String.data_append]
  exact startsWith_append _ _

theorem stripWhiteout_append (n : String) : stripWhiteout (WHITEOUT ++ n) = n := by
  simp only [stripWhiteout, String.data_append]
  have : WHITEOUT.length = WHITEOUT.data.length := rfl
  rw [this, List.drop_left']
  rfl

/-- A marker `d/.wh.n` of any layer removes `d/n` and everything beneath it
from the merged tree, whichever layers define `d/n`, when the walk returns. -/
theorem marker_shadows {deny : Path → Bool} {dir : Path} {layers : List (List Entry)}
    {t t1 : FS} (hl : ∀ l ∈ layers, layerOK l = true)
    (hs : syncLayers dir (layers.map some) = .ok t)
    (hd : deleteWhiteouts deny t dir = .ok t1) {d : Path} {n : String}
    (hm : ∃ l ∈ layers, ∃ m ∈ l, m.path = d ++ [WHITEOUT ++ n]) :
    ∀ e ∈ t1, within (dir ++ ["layer"] ++ d ++ [n]) e.path = false := by
  obtain ⟨hwf, _⟩ := sync_inv dir layers t hl hs
  obtain ⟨x, hx, hp⟩ :=
    (merge_exists dir (d ++ [WHITEOUT ++ n]) (by simp) layers t hs).2 hm
  have hp1 : x.path = (dir ++ ["layer"] ++ d) ++ [WHITEOUT ++ n] := by
    rw [hp, List.append_assoc (dir ++ ["layer"])]
  have hroot : within dir x.path = true := by
    rw [hp, List.append_assoc dir]
    exact within_append _ _
  have hbase : baseName x.path = WHITEOUT ++ n := by rw [hp1, baseName_snoc]
  have hw : isWhiteout (baseName x.path) = true := by rw [hbase]; exact isWhiteout_append n
  have := shadowed_gone hwf hd hx hroot hw
  rw [hbase, stripWhiteout_append, hp1, dropLast_snoc] at this
  exact this

/-! ## The claims on the merge and the walk -/

/-- C1 where `rsync` does not overwrite.  With a regular file `a` in the
more-derived layer over a directory `a` that holds `a/f` in the less-derived
one, `syncData` fails and there is no merged tree; with a file `f` of the same
size and modification time in both layers, the merged tree keeps the content
of the less-derived layer. -/
theorem C1_rsync_does_not_always_overwrite :
    syncData blockedStore scratch (chainOf ["l2", "l1"]) = .error (.notEmpty scratch) ∧
    syncData sameStampStore scratch (chainOf ["l2", "l1"])
      = .ok [dirE ["tmp", "d", "layer"], fileE ["tmp", "d", "layer", "f"] "old",
             dirE ["tmp"], dirE ["tmp", "d"]] :=
  ⟨rfl, rfl⟩

/-- C2 on its own end-to-end scenario: the marker `.wh.y` is walked before
`y`, the callback removes `y`, and when the walk reaches the name `y` it calls
the callback with no `FileInfo`: the run stops there instead of producing the
flattened tree. -/
theorem C2_scenario_walk_stops :
    syncData scenarioStore scratch (chainOf ["l2", "l1"]) = .ok mergedScenario ∧
    deleteWhiteouts allow mergedScenario scratch = .error .nilInfo :=
  ⟨rfl, rfl⟩

/-- C3 on a tree with a marked directory that holds a marker of its own. -/
theorem C3_marked_directory_clean :
    wellFormed oldMarker = true ∧
    deleteWhiteouts allow oldMarker scratch
      = .ok [dirE ["tmp"], dirE ["tmp", "d"], dirE ["tmp", "d", "layer"],
             fileE ["tmp", "d", "layer", "kept"] "k"] ∧
    ∀ e ∈ [dirE ["tmp"], dirE ["tmp", "d"], dirE ["tmp", "d", "layer"],
           fileE ["tmp", "d", "layer", "kept"] "k"],
      within scratch e.path = true → isWhiteout (baseName e.path) = false :=
  ⟨by decide, rfl, C3_no_marker_left allow oldMarker _ scratch (by decide) rfl⟩

/-- C4 (as stated) fails: the more-derived layer writes a real `-y`, the
less-derived layer holds the marker `.wh.-y`, both calls return, and `-y` is
absent from the tree. -/
theorem C4_readded_entry_removed :
    (∃ e ∈ reAdd.head!, e.path = [] ++ ["-y"]) ∧
    (∃ m ∈ reAdd.getLast!, m.path = [] ++ [WHITEOUT ++ "-y"]) ∧
    (chainOf ["l2", "l1"]).Images.map (fun image => reAddStore image.Id) = reAdd.map some ∧
    syncData reAddStore scratch (chainOf ["l2", "l1"]) = .ok mergedReAdd ∧
    deleteWhiteouts allow mergedReAdd scratch = .ok flatReAdd ∧
    ¬ ∃ e ∈ flatReAdd, e.path = scratch ++ ["layer"] ++ [] ++ ["-y"] :=
  ⟨by decide, by decide, rfl, rfl, rfl, by decide⟩

/-- C4 (as the code has it): whiteouts are resolved once, on the merged tree.
When a less-derived layer holds the marker `d/.wh.n` and a more-derived layer
writes a real entry `d/n`, then `d/n` and everything beneath it is absent from
the tree whenever `syncData` and `deleteWhiteouts` return without error. -/
theorem C4_whiteout_not_layer_scoped (store : String → Option (List Entry))
    (deny : Path → Bool) (dir : Path) (img : finalImage)
    (A : List (List Entry)) (M : List Entry) (B : List (List Entry)) (L : List Entry)
    (C : List (List Entry)) (t t1 : FS) (d : Path) (n : String)
    (hstore : img.Images.map (fun image => store image.Id)
      = (A ++ M :: (B ++ L :: C)).map some)
    (hl : ∀ l ∈ A ++ M :: (B ++ L :: C), layerOK l = true)
    (_hdef : ∃ e ∈ M, e.path = d ++ [n])
    (hm : ∃ m ∈ L, m.path = d ++ [WHITEOUT ++ n])
    (hs : syncData store dir img = .ok t)
    (hd : deleteWhiteouts deny t dir = .ok t1) :
    ∀ e ∈ t1, within (dir ++ ["layer"] ++ d ++ [n]) e.path = false := by
  have h1 : syncLayers dir ((A ++ M :: (B ++ L :: C)).map some) = .ok t := by
    rw [← hstore]
    exact hs
  exact marker_shadows hl h1 hd ⟨L, by simp, hm⟩

/-- C4 (as the code has it) on the chain `reAdd`. -/
theorem C4_not_layer_scoped_witness :
    syncData reAddStore scratch (chainOf ["l2", "l1"]) = .ok mergedReAdd ∧
    deleteWhiteouts allow mergedReAdd scratch = .ok flatReAdd ∧
    fileE ["tmp", "d", "layer", "common"] "two" ∈ flatReAdd ∧
    ∀ e ∈ flatReAdd, within (scratch ++ ["layer"] ++ [] ++ ["-y"]) e.path = false :=
  ⟨rfl, rfl, by decide,
   C4_whiteout_not_layer_scoped reAddStore allow scratch (chainOf ["l2", "l1"])
     [] [fileE ["-y"] "new", fileE ["common"] "two"] []
     [fileE [".wh.-y"] "", fileE ["common"] "one!"] [] mergedReAdd flatReAdd [] "-y" rfl
     (by decide) (by decide) (by decide) rfl rfl⟩

/-- C5 at a marker named exactly `.wh.`: the marker is dangling, yet the walk
removes the whole directory that holds it, the file `-keep` included. -/
theorem C5_bare_marker_removes_directory :
    wellFormed bareMarker = true ∧
    lstat bareMarker ["tmp", "d", "layer", "etc", stripWhiteout ".wh."] = none ∧
    deleteWhiteouts allow bareMarker scratch
      = .ok [dirE ["tmp"], dirE ["tmp", "d"], dirE ["tmp", "d", "layer"]] :=
  ⟨by decide, by decide, rfl⟩

/-! ## Worked instances and the tail of `main` -/

/-- C6 on a four-token command. -/
theorem C6_four_token_command :
    fourTokens.Images =
      { Id := "top", Parent := "base", Author := "me",
        Config := { PortSpecs := [], Cmd := ["/bin/sh", "-c", "echo", "hi"] } } :: [] ∧
    fourTokens.Cmds = some ["echo", "hi"] ∧
    fourTokens.HasCmds = some true :=
  ⟨rfl,
   (C6_cmds_drop_two fourTokens _ [] rfl).1 (by decide),
   (C6_cmds_drop_two fourTokens _ [] rfl).2.2⟩

/-- C8 on a history of three entries. -/
theorem C8_three_entry_history :
    (∀ h ∈ historyOf "top" :: historyOf "mid" :: [historyOf "base"],
      ∃ img, echoInspect h.Id = .ok img) ∧
    buildFinal echoInspect "new" "orig" [historyOf "top", historyOf "mid", historyOf "base"]
      = .ok { Base := "base", NewName := "new", OriginalName := "orig", Archive := "",
              Images := [{ Id := "top", Parent := "", Author := "top",
                           Config := { PortSpecs := ["80"], Cmd := ["/bin/sh", "-c", "top"] } },
                         { Id := "mid", Parent := "", Author := "mid",
                           Config := { PortSpecs := ["80"], Cmd := ["/bin/sh", "-c", "mid"] } }] } ∧
    ∃ final first,
      buildFinal echoInspect "new" "orig"
        (historyOf "top" :: historyOf "mid" :: [historyOf "base"]) = .ok final ∧
      echoInspect "top" = .ok first ∧
      final.Base = "base" ∧
      final.Author = some first.Author ∧
      final.Ports = some first.Config.PortSpecs ∧
      final.Images.head? = some first ∧
      final.Images.length = 2 :=
  ⟨fun _ _ => ⟨_, rfl⟩, rfl,
   C8_final_image_fields echoInspect "new" "orig" (historyOf "top") (historyOf "mid")
     [historyOf "base"] (fun _ _ => ⟨_, rfl⟩)⟩

/-- C9 at a history of fewer than two entries: `main` has no length check.
An empty history stops it on the unchecked index `histories[len-1]`; a
one-entry history yields a final image without images, on which `Author`,
`Ports` and `Cmds` fail on index 0, no layer is merged, and the run goes on to
its last line with status 0. -/
theorem C9_short_history_unchecked :
    buildFinal oneEntryInspect "new" "orig" [] = .error .indexOutOfRange ∧
    buildFinal oneEntryInspect "new" "orig" [historyOf "only"]
      = .ok { Base := "only", NewName := "new", OriginalName := "orig", Archive := "",
              Images := [] } ∧
    finalImage.Author { Base := "only", NewName := "new", OriginalName := "orig",
                        Archive := "", Images := [] } = none ∧
    finalImage.Cmds { Base := "only", NewName := "new", OriginalName := "orig",
                      Archive := "", Images := [] } = none ∧
    syncData oneLayerStore scratch { Base := "only", NewName := "new", OriginalName := "orig",
                                     Archive := "", Images := [] } = .ok (mkdirAll scratch) ∧
    mainTail oneLayerStore scratch { Base := "only", NewName := "new", OriginalName := "orig",
                                     Archive := "", Images := [] } allow
      = { exitCode := 0, whiteoutErr := none, archived := true, built := true,
          finished := true } :=
  ⟨rfl, rfl, rfl, rfl, rfl, rfl⟩

/-- C10 at a removal the operating system refuses: `deleteWhiteouts` returns
the error, and `main`, which drops that value, still archives, builds and
finishes with status 0. -/
theorem C10_whiteout_error_dropped :
    syncData oneLayerStore scratch fourTokens
      = .ok [dirE ["tmp", "d", "layer"], fileE ["tmp", "d", "layer", ".wh.y"] "",
             fileE ["tmp", "d", "layer", "y"] "data", dirE ["tmp"], dirE ["tmp", "d"]] ∧
    deleteWhiteouts denyY
        [dirE ["tmp", "d", "layer"], fileE ["tmp", "d", "layer", ".wh.y"] "",
         fileE ["tmp", "d", "layer", "y"] "data", dirE ["tmp"], dirE ["tmp", "d"]] scratch
      = .error (.denied ["tmp", "d", "layer", "y"]) ∧
    mainTail oneLayerStore scratch fourTokens denyY
      = { exitCode := 0, whiteoutErr := some (.denied ["tmp", "d", "layer", "y"]),
          archived := true, built := true, finished := true } :=
  ⟨rfl, rfl, rfl⟩

end Flatten
